import Mathlib

/-!
Track.go, a directory watcher

A shallow embedding of `src/Track.go`.  The program polls a list of watched
directories; for every tracked file whose content differs from the latest
row stored for it in the table `changes`, it runs the target's command list
and then inserts a new row.

Modelling decisions:

* the process state is an explicit `World` (table rows, disk, working
  directory, standard streams) threaded through every function;
* the disk is a list of directories and regular files under their absolute
  paths. A path given to the operating system is resolved component by
  component, from the root when it starts with `/` and from the working
  directory otherwise, and every directory on the way has to exist. There
  are no symbolic links and no permissions;
* the log file of a target is a file of that disk: `writeLog` and
  `writeErrorLog` open it (creating it when it is missing), append to it,
  and take the failure path of the source when it cannot be opened;
* `log.Fatal` (reached through `checkErr`) is the `fatal` constructor of
  `Result`; it carries the state at the moment the process exits;
* the external collaborators are parameters (`Env`): `regexp.MatchString`,
  the programs started by `exec.Command(...).Output()`, and the clock that
  stamps the files the program writes;
* the database is a list of rows in insertion order and never fails, so the
  error branches behind `db.Query` and `db.Exec` are not reachable here;
* `main`, `loadEnvVar`, `connectDB` and `readConfig` only load the list of
  targets and open the database; the model starts from a loaded list;
* `World.trace` and `World.logged` are history variables. The first records
  every pipeline start, every spawned command with its outcome, and every
  insert, in order; the second every line handed to the log file and the
  file it reached. No function reads them, except that the length of the
  trace is given to the command oracle and to the clock as a time stamp, so
  that one command may behave differently each time.
-/

namespace Track

/-! ## Data model -/

/-- Config: one watch target, the struct `Config` of the source. -/
structure Config where
  Path : String
  Commands : List String
  Exclude : List String
  Include : List String
  Logfile : String
deriving DecidableEq

/-- Modelled from the spec: the schema of table `changes` is not in the source.
A row has the four columns named by the INSERT statement; the serial `id`
used by `ORDER BY id desc` is the position of the row in the table. -/
structure Row where
  path : String
  filename : String
  file_content : String
  created_at : Nat
deriving DecidableEq

/-- Node: a regular file with its content and modification time, or a
directory with its modification time. -/
inductive Node where
  | file (content : String) (ModTime : Nat)
  | dir (ModTime : Nat)
deriving DecidableEq

/-- Disk: the nodes under their absolute paths, a path being the list of
its components; the root `[]` is a directory also when it has no entry. The
order of the list is the order in which a directory lists its entries. -/
abbrev Disk := List (List String × Node)

/-- FileInfo: what `os.Stat` returns. -/
structure FileInfo where
  ModTime : Nat
  IsDir : Bool
deriving DecidableEq

/-- DirEntry: one entry returned by `f.Readdir(0)`. -/
structure DirEntry where
  Name : String
  IsDir : Bool
deriving DecidableEq

/-- CmdErr: the non-nil errors of `cmd.Output()`: the command ran and exited
with a non-zero status, or it could not be started at all. -/
inductive CmdErr where
  | exitError (msg : String)
  | startError (msg : String)
deriving DecidableEq

/-- The text of an error, as printed by the logging functions. -/
def CmdErr.Error : CmdErr → String
  | .exitError msg => msg
  | .startError msg => msg

/-- CmdResult: what running one external command does: it succeeds or exits
with a non-zero status, leaving its output and a disk behind, or it cannot
be started. -/
inductive CmdResult where
  | ok (out : String) (disk : Disk)
  | exit (out : String) (err : String) (disk : Disk)
  | start (err : String)

/-- Event: entries of the history of pipeline starts, spawned commands (with
working directory, program, arguments, output and error) and inserts. -/
inductive Event where
  | pipeline (path : String)
  | spawn (dir : List String) (prog : String) (args : List String) (out : String)
      (err : Option CmdErr)
  | commit (path filename content : String)
deriving DecidableEq

/-- LogWrite: one line handed to a log file: the configured name of the
file, the line, and the file the line was appended to, none when the file
could not be opened and the line was lost. -/
structure LogWrite where
  file : String
  line : String
  key : Option (List String)
deriving DecidableEq

/-- World: the whole state the program acts on. -/
structure World where
  db : List Row
  disk : Disk
  cwd : List String
  logged : List LogWrite
  stdout : List String
  stderr : List String
  trace : List Event
deriving DecidableEq

/-- Env: the external collaborators. `MatchString pattern name` is
`regexp.MatchString` with its error dropped (an invalid pattern gives false);
`Output time disk cwd prog args` is the effect of running a program;
`Now time` is the reading of the clock. -/
structure Env where
  MatchString : String → String → Bool
  Output : Nat → Disk → List String → String → List String → CmdResult
  Now : Nat → Nat

/-- Result: a function either returns a value in a new state, or the process
has been terminated by `log.Fatal`. -/
inductive Result (α : Type) where
  | ok (val : α) (w : World)
  | fatal (err : String) (w : World)

/-- The state a result ends in. -/
def Result.world {α : Type} : Result α → World
  | .ok _ w => w
  | .fatal _ w => w

/-- Whether the process was terminated. -/
def Result.isFatal {α : Type} : Result α → Bool
  | .ok _ _ => false
  | .fatal _ _ => true

/-! ## Strings and paths -/

/-- The pieces of a character sequence between occurrences of `sep`; there
is always at least one piece, and pieces may be empty. -/
def splitChars (sep : Char) : List Char → List (List Char)
  | [] => [[]]
  | c :: cs =>
    if c = sep then [] :: splitChars sep cs
    else
      match splitChars sep cs with
      | [] => [[c]]
      | p :: ps => (c :: p) :: ps

/-- strings.Split(s, " "): slices s into the substrings separated by a
single space character. -/
def stringsSplit (s : String) : List String :=
  (splitChars ' ' s.toList).map String.mk

/-- The components of a path, the pieces between slashes. -/
def pathComps (p : String) : List String :=
  (splitChars '/' p.toList).map String.mk

/-- Whether a path starts at the root. -/
def isAbs (p : String) : Bool :=
  p.toList.head? = some '/'

/-- One component of a path, followed from the directory `cur`: an empty
component and `.` stay, `..` goes to the parent, a name goes down. -/
def lexStep (cur : List String) (c : String) : List String :=
  if c = "" ∨ c = "." then cur
  else if c = ".." then cur.dropLast
  else cur ++ [c]

/-- Where a path leads by its text alone, from the working directory `cwd`. -/
def lexKey (cwd : List String) (p : String) : List String :=
  (pathComps p).foldl lexStep (if isAbs p then [] else cwd)

/-! ## The disk -/

/-- The node at an absolute path. -/
def nodeAt (d : Disk) (k : List String) : Option Node :=
  match d.lookup k with
  | some n => some n
  | none => if k = [] then some (.dir 0) else none

/-- Whether a directory is at an absolute path. -/
def isDir (d : Disk) (k : List String) : Bool :=
  match nodeAt d k with
  | some (.dir _) => true
  | _ => false

/-- Follows the components of a path from the directory `cur`; each step
starts in an existing directory. -/
def walk (d : Disk) : List String → List String → Option (List String)
  | cur, [] => some cur
  | cur, c :: rest => if isDir d cur then walk d (lexStep cur c) rest else none

/-- The absolute path a path string denotes, when all directories on the way
exist; the empty path denotes nothing. -/
def resolve (d : Disk) (cwd : List String) (p : String) : Option (List String) :=
  if p = "" then none
  else walk d (if isAbs p then [] else cwd) (pathComps p)

/-- Applies `g` to the node at `k`. -/
def mapNode (d : Disk) (k : List String) (g : Node → Node) : Disk :=
  d.map (fun e => if e.1 = k then (e.1, g e.2) else e)

/-- A file with text appended at the time `now`; a directory stays. -/
def Node.append (text : String) (now : Nat) : Node → Node
  | .file c _ => .file (c ++ text) now
  | .dir t => .dir t

/-- A directory whose entries changed at the time `now`; a file stays. -/
def Node.bump (now : Nat) : Node → Node
  | .file c t => .file c t
  | .dir _ => .dir now

/-- Whether a node is a directory. -/
def Node.isDir : Node → Bool
  | .file _ _ => false
  | .dir _ => true

/-- Whether the last component of a path names an entry, so that a file can
be created under it. -/
def creatable (p : String) : Bool :=
  let c := (pathComps p).getLastD ""
  c ≠ "" ∧ c ≠ "." ∧ c ≠ ".."

/-- os.OpenFile(p, O_CREATE|O_APPEND|O_WRONLY, 0644): the file that was
opened and the disk afterwards (an empty file is created when none is
there and the directory exists), or none when the file cannot be opened. -/
def osOpenFile (d : Disk) (cwd : List String) (p : String) (now : Nat) :
    Option (List String × Disk) :=
  match resolve d cwd p with
  | none => none
  | some k =>
    match nodeAt d k with
    | some (.file _ _) => some (k, d)
    | some (.dir _) => none
    | none =>
      if creatable p then
        some (k, mapNode d k.dropLast (Node.bump now) ++ [(k, .file "" now)])
      else none

/-- os.ReadFile: content of the file, or an error. -/
def osReadFile (d : Disk) (cwd : List String) (p : String) : Except String String :=
  match resolve d cwd p with
  | none => .error ("open " ++ p ++ ": no such file or directory")
  | some k =>
    match nodeAt d k with
    | some (.file c _) => .ok c
    | some (.dir _) => .error ("read " ++ p ++ ": is a directory")
    | none => .error ("open " ++ p ++ ": no such file or directory")

/-- os.Stat: file information, or an error when nothing is at the path. -/
def osStat (d : Disk) (cwd : List String) (p : String) : Except String FileInfo :=
  match resolve d cwd p with
  | none => .error ("stat " ++ p ++ ": no such file or directory")
  | some k =>
    match nodeAt d k with
    | some (.file _ t) => .ok ⟨t, false⟩
    | some (.dir t) => .ok ⟨t, true⟩
    | none => .error ("stat " ++ p ++ ": no such file or directory")

/-- os.Open: a handle on the node at the path, or an error when nothing is
there. -/
def osOpen (d : Disk) (cwd : List String) (p : String) : Except String (List String) :=
  match resolve d cwd p with
  | none => .error ("open " ++ p ++ ": no such file or directory")
  | some k =>
    match nodeAt d k with
    | some _ => .ok k
    | none => .error ("open " ++ p ++ ": no such file or directory")

/-- The entries directly under the directory `k`, in the order of the disk. -/
def dirEntries (d : Disk) (k : List String) : List DirEntry :=
  (d.filter (fun e => e.1 ≠ [] ∧ e.1.dropLast = k)).map
    (fun e => ⟨e.1.getLastD "", e.2.isDir⟩)

/-- Readdir(0) on an open handle: the listing, or an error when the handle
is not on a directory. -/
def Readdir (d : Disk) (k : List String) : Except String (List DirEntry) :=
  if isDir d k then .ok (dirEntries d k) else .error "readdirent: not a directory"

/-! ## Logging and error helpers (lines 264-294) -/

/-- checkErr: `log.Fatal(err)` when err is not nil. -/
def checkErr (err : Option String) (w : World) : Result Unit :=
  match err with
  | none => .ok () w
  | some e => .fatal e { w with stderr := w.stderr ++ [e] }

/-- logErr: `log.Print(err)` when err is not nil; the process goes on. -/
def logErr (err : Option String) (w : World) : World :=
  match err with
  | none => w
  | some e => { w with stderr := w.stderr ++ [e] }

/-- writeLog (lines 276-284): opens the log file and prints the note as a
line. When the file cannot be opened the handle is nil, `Fprintln` returns
the error `invalid argument`, and that error goes to logErr. -/
def writeLog (env : Env) (note : String) (config : Config) (w : World) : World :=
  match osOpenFile w.disk w.cwd config.Logfile (env.Now w.trace.length) with
  | none =>
    logErr (some "invalid argument")
      { w with logged := w.logged ++ [⟨config.Logfile, note, none⟩] }
  | some (k, d) =>
    { w with disk := mapNode d k (Node.append (note ++ "\n") (env.Now w.trace.length)),
             logged := w.logged ++ [⟨config.Logfile, note, some k⟩] }

/-- writeErrorLog (lines 286-294): opens the log file, also for a nil error,
and prints the error as a line when it is not nil; the result of `Fprintln`
is dropped. -/
def writeErrorLog (env : Env) (err : Option String) (config : Config) (w : World) : World :=
  match osOpenFile w.disk w.cwd config.Logfile (env.Now w.trace.length) with
  | none =>
    match err with
    | none => w
    | some e => { w with logged := w.logged ++ [⟨config.Logfile, e, none⟩] }
  | some (k, d) =>
    match err with
    | none => { w with disk := d }
    | some e =>
      { w with disk := mapNode d k (Node.append (e ++ "\n") (env.Now w.trace.length)),
               logged := w.logged ++ [⟨config.Logfile, e, some k⟩] }

/-- Println: `fmt.Println` on standard output. -/
def Println (line : String) (w : World) : World :=
  { w with stdout := w.stdout ++ [line] }

/-! ## The program -/

/-- os.Chdir with its error ignored: the working directory changes when the
path leads to a directory and stays what it was otherwise. -/
def osChdir (p : String) (w : World) : World :=
  match resolve w.disk w.cwd p with
  | some k => if isDir w.disk k then { w with cwd := k } else w
  | none => w

/-- cmd.Output() for `exec.Command(prog, args...)`, run in the working
directory of the process: returns the captured standard output and the
error, and records the attempt in the history. A command that cannot be
started produces no output and changes nothing. -/
def cmdOutput (env : Env) (prog : String) (args : List String) (w : World) :
    String × Option CmdErr × World :=
  match env.Output w.trace.length w.disk w.cwd prog args with
  | .ok out d =>
    (out, none,
      { w with disk := d, trace := w.trace ++ [.spawn w.cwd prog args out none] })
  | .exit out e d =>
    (out, some (.exitError e),
      { w with disk := d,
               trace := w.trace ++ [.spawn w.cwd prog args out (some (.exitError e))] })
  | .start e =>
    ("", some (.startError e),
      { w with trace := w.trace ++ [.spawn w.cwd prog args "" (some (.startError e))] })

/-- The loop of execCommands (lines 75-87). -/
def execLoop (env : Env) (config : Config) : List String → World → Result Unit
  | [], w => .ok () (Println "Finished" w)
  | c :: cs, w =>
    let w1 := osChdir config.Path w
    match stringsSplit c with
    | [] => .fatal "index out of range" w1
    | prog :: args =>
      let r := cmdOutput env prog args w1
      let w2 := writeLog env r.1 config r.2.2
      let w3 := writeErrorLog env (r.2.1.map CmdErr.Error) config w2
      let w4 := logErr (r.2.1.map CmdErr.Error) w3
      match r.2.1 with
      | some _ => .ok () w4
      | none => execLoop env config cs w4

/-- execCommands (lines 74-88): runs the commands of the target in order and
returns at the first error. -/
def execCommands (env : Env) (config : Config) (w : World) : Result Unit :=
  execLoop env config config.Commands
    { w with trace := w.trace ++ [.pipeline config.Path] }

/-- getLocalFileContent (lines 97-105). -/
def getLocalFileContent (env : Env) (filename : String) (config : Config) (w : World) :
    Result String :=
  match osReadFile w.disk w.cwd (config.Path ++ filename) with
  | .ok fileByte => .ok fileByte (writeErrorLog env none config w)
  | .error err =>
    match checkErr (some err) (writeErrorLog env (some err) config w) with
    | .ok _ w1 => .ok "" w1
    | .fatal e w1 => .fatal e w1

/-- contentDiffers (lines 113-120). -/
def contentDiffers (fileContent1 fileContent2 : String) : Bool :=
  if fileContent1 ≠ fileContent2 then true else false

/-- The query of getLatestVersion: the `file_content` of the rows with the
given path and filename, `ORDER BY id desc LIMIT 1`. -/
def queryLatest (db : List Row) (path filename : String) : List String :=
  ((db.filter (fun r => r.path = path ∧ r.filename = filename)).reverse.take 1).map
    (fun r => r.file_content)

/-- getLatestVersion (lines 129-148): content starts empty and is overwritten
by every row the query returns; writeErrorLog is called once after the
query and once for every row. Returns the content and the state. -/
def getLatestVersion (env : Env) (filename : String) (config : Config) (w : World) :
    String × World :=
  (queryLatest w.db config.Path filename).foldl
    (fun acc scanned => (scanned, writeErrorLog env none config acc.2))
    ("", writeErrorLog env none config w)

/-- saveChangesToDb (lines 156-166). -/
def saveChangesToDb (env : Env) (filename : String) (config : Config) (content : String)
    (w : World) : Result Unit :=
  match osStat w.disk w.cwd (config.Path ++ filename) with
  | .error err =>
    match checkErr (some err) (writeErrorLog env (some err) config w) with
    | .ok _ w1 => .ok () w1
    | .fatal e w1 => .fatal e w1
  | .ok file =>
    let w1 := writeErrorLog env none config w
    .ok ()
      (writeErrorLog env none config
        { w1 with db := w1.db ++ [⟨config.Path, filename, content, file.ModTime⟩],
                  trace := w1.trace ++ [.commit config.Path filename content] })

/-- The body of the loop of checkChanges (lines 193-198) for one file. -/
def checkChangesBody (env : Env) (file : String) (config : Config) (w : World) :
    Result Unit :=
  let latest := getLatestVersion env file config w
  match getLocalFileContent env file config latest.2 with
  | .fatal e w1 => .fatal e w1
  | .ok localFileContent w1 =>
    if contentDiffers latest.1 localFileContent then
      match execCommands env config w1 with
      | .fatal e w2 => .fatal e w2
      | .ok _ w2 => saveChangesToDb env file config localFileContent w2
    else .ok () w1

/-- checkChanges (lines 191-200). -/
def checkChanges (env : Env) : List String → Config → World → Result Unit
  | [], _, w => .ok () w
  | file :: files, config, w =>
    match checkChangesBody env file config w with
    | .fatal e w1 => .fatal e w1
    | .ok _ w1 => checkChanges env files config w1

/-- The two pattern loops of readDir (lines 238-249) on the flag addFile. -/
def applyPatterns (env : Env) (config : Config) (name : String) (addFile : Bool) : Bool :=
  let afterExclude :=
    config.Exclude.foldl (fun a p => if env.MatchString p name then false else a) addFile
  config.Include.foldl (fun a p => if env.MatchString p name then true else a) afterExclude

/-- The loop of readDir over the directory entries (lines 236-256), with the
variables files and addFile as accumulators. -/
def readDirLoop (env : Env) (config : Config) :
    List DirEntry → List String → Bool → World → List String × World
  | [], files, _, w => (files, w)
  | v :: rest, files, addFile, w =>
    if !v.IsDir then
      if applyPatterns env config v.Name addFile then
        readDirLoop env config rest (files ++ [v.Name]) true
          (writeLog env ("File tracked: " ++ v.Name) config w)
      else readDirLoop env config rest files true w
    else readDirLoop env config rest files true w

/-- readDir (lines 223-258): the directory is opened, then listed; the
listing is taken after the first call of writeErrorLog. -/
def readDir (env : Env) (config : Config) (w : World) : Result (List String) :=
  match osOpen w.disk w.cwd config.Path with
  | .error err =>
    match checkErr (some err) (writeErrorLog env (some err) config w) with
    | .ok _ w1 => .ok [] w1
    | .fatal e w1 => .fatal e w1
  | .ok f =>
    let w1 := writeErrorLog env none config w
    match Readdir w1.disk f with
    | .error err =>
      match checkErr (some err) (writeErrorLog env (some err) config w1) with
      | .ok _ w2 => .ok [] w2
      | .fatal e w2 => .fatal e w2
    | .ok file =>
      let r := readDirLoop env config file [] true (writeErrorLog env none config w1)
      .ok r.1 r.2

/-- One pass of the loop of monitoring over all targets (lines 174-179). -/
def monitoringPass (env : Env) : List Config → World → Result Unit
  | [], w => .ok () w
  | c :: cs, w =>
    match readDir env c (writeLog env ("Tracking: " ++ c.Path) c w) with
    | .fatal e w1 => .fatal e w1
    | .ok files w1 =>
      match checkChanges env files c w1 with
      | .fatal e w2 => .fatal e w2
      | .ok _ w2 => monitoringPass env cs w2

/-- monitoring (lines 172-182), cut after n passes of its endless loop; the
sleep between passes has no effect on the state. -/
def monitoring (env : Env) (config : List Config) : Nat → World → Result Unit
  | 0, w => .ok () w
  | n + 1, w =>
    match monitoringPass env config w with
    | .fatal e w1 => .fatal e w1
    | .ok _ w1 => monitoring env config n w1

/-! ## A matcher for a fragment of the regular expressions

`regexp.MatchString` belongs to the Go library, and the scanner is proved
correct for any matcher. To run the scanner on concrete patterns, the
fragment made of literal characters, escaped ASCII punctuation, `.`, a
postfix `*` on one of these, a leading `^` and `$` is given a backtracking
matcher. For a pattern outside the fragment the matcher gives no answer,
and nothing is said about such a pattern. -/

/-- ReAtom: one character position of a pattern. -/
inductive ReAtom where
  | any
  | lit (c : Char)

/-- ReItem: an atom, a starred atom, or the end-of-text assertion. -/
inductive ReItem where
  | one (a : ReAtom)
  | star (a : ReAtom)
  | eol

/-- Whether an atom accepts a character; `.` does not accept a newline. -/
def ReAtom.accepts : ReAtom → Char → Bool
  | .any, c => c ≠ '\n'
  | .lit d, c => c = d

/-- Characters with a meaning outside the fragment. -/
def reUnsupported (c : Char) : Bool :=
  c = '[' || c = ']' || c = '(' || c = ')' || c = '+' || c = '?' || c = '|' ||
  c = '^' || c = '*' || c = '\x7b' || c = '\x7d'

/-- Reads one atom off the front of a pattern. A backslash makes a literal
of an ASCII character that is neither a letter nor a digit; every other
escape is outside the fragment. -/
def reAtom : List Char → Option (ReAtom × List Char)
  | [] => none
  | '\\' :: c :: rest =>
    if c.toNat < 128 ∧ ¬ c.isAlphanum then some (.lit c, rest) else none
  | '\\' :: [] => none
  | '.' :: rest => some (.any, rest)
  | c :: rest => if reUnsupported c then none else some (.lit c, rest)

/-- Parses a pattern (without a leading `^`), with fuel bounding the number
of items. -/
def reParse : Nat → List Char → Option (List ReItem)
  | _, [] => some []
  | 0, _ :: _ => none
  | n + 1, '$' :: rest => (reParse n rest).map (fun r => ReItem.eol :: r)
  | n + 1, p =>
    match reAtom p with
    | none => none
    | some (a, '*' :: rest) => (reParse n rest).map (fun r => ReItem.star a :: r)
    | some (a, rest) => (reParse n rest).map (fun r => ReItem.one a :: r)

/-- Tries every number of repetitions of a starred atom, then continues. -/
def reStar (a : ReAtom) (k : List Char → Bool) : List Char → Bool
  | [] => k []
  | c :: t => k (c :: t) || (a.accepts c && reStar a k t)

/-- Whether the items match a prefix of the text. -/
def reHere : List ReItem → List Char → Bool
  | [], _ => true
  | .eol :: r, t => t.isEmpty && reHere r t
  | .one a :: r, t =>
    match t with
    | [] => false
    | c :: t1 => a.accepts c && reHere r t1
  | .star a :: r, t => reStar a (reHere r) t

/-- Whether the items match somewhere in the text. -/
def reSearch (items : List ReItem) : List Char → Bool
  | [] => reHere items []
  | c :: t => reHere items (c :: t) || reSearch items t

/-- The matcher for the fragment: the answer of `regexp.MatchString` for a
pattern of the fragment, none for any other pattern. -/
def fragmentMatch (pattern name : String) : Option Bool :=
  match pattern.toList with
  | '^' :: p =>
    match reParse p.length p with
    | some items => some (reHere items name.toList)
    | none => none
  | p =>
    match reParse p.length p with
    | some items => some (reSearch items name.toList)
    | none => none

/-- The matcher of the environments below. The patterns they are run with
are in the fragment; the answer false for a pattern outside it is a
placeholder that no statement relies on. -/
def exampleMatchString (pattern name : String) : Bool :=
  (fragmentMatch pattern name).getD false

/-! ## Concrete environments and states used to run the model -/

/-- Every command runs and exits with status 1, touching nothing. -/
def envExit1 : Env :=
  { MatchString := exampleMatchString
    Output := fun _ d _ _ _ => .exit "" "exit status 1" d
    Now := fun n => 100 + n }

/-- No command can be started. -/
def envNoStart : Env :=
  { MatchString := exampleMatchString
    Output := fun _ _ _ prog _ =>
      .start ("exec: " ++ prog ++ ": executable file not found in $PATH")
    Now := fun n => 100 + n }

/-- Every command succeeds, printing its own name, touching nothing. -/
def envEcho : Env :=
  { MatchString := exampleMatchString
    Output := fun _ d _ prog _ => .ok prog d
    Now := fun n => 100 + n }

/-- The command `A` runs and exits with status 1; every other command
succeeds, printing its own name. -/
def envFailA : Env :=
  { MatchString := exampleMatchString
    Output := fun _ d _ prog _ =>
      if prog = "A" then .exit "a-out" "exit status 1" d else .ok prog d
    Now := fun n => 100 + n }

/-- Every command succeeds and overwrites the content of `/w/b` with `z`. -/
def envRewriteB : Env :=
  { MatchString := exampleMatchString
    Output := fun t d _ _ _ => .ok "" (mapNode d ["w", "b"] (fun _ => .file "z" t))
    Now := fun n => 100 + n }

/-- Every command succeeds and toggles the content of `/w/f` between `x`
and `y`. -/
def envToggleF : Env :=
  { MatchString := exampleMatchString
    Output := fun t d _ _ _ =>
      .ok "" (mapNode d ["w", "f"] (fun n =>
        match n with
        | .file c _ => .file (if c = "x" then "y" else "x") t
        | .dir m => .dir m))
    Now := fun n => 100 + n }

/-- A state with the given table and disk, the root as working directory,
and nothing printed or logged. -/
def worldOf (db : List Row) (disk : Disk) : World :=
  { db := db, disk := disk, cwd := [], logged := [], stdout := [], stderr := [],
    trace := [] }

/-- The state with an empty table and an empty disk. -/
def worldEmpty : World := worldOf [] []

/-- A target rooted at `/w/` with the given commands, no patterns, and the
log file `/t.log` outside the watched directory. -/
def targetW (commands : List String) : Config :=
  { Path := "/w/", Commands := commands, Exclude := [], Include := [],
    Logfile := "/t.log" }

/-- A target rooted at `/w/` whose log file `/w/w.log` lies in the watched
directory. -/
def targetLogInside (commands : List String) : Config :=
  { Path := "/w/", Commands := commands, Exclude := [], Include := [],
    Logfile := "/w/w.log" }

/-- A target rooted at `/w/` with an empty log file name, so that the log
file can never be opened. -/
def targetNoLog (commands : List String) : Config :=
  { Path := "/w/", Commands := commands, Exclude := [], Include := [],
    Logfile := "" }

/-- A target with the relative root `w/`. -/
def targetRelative (commands : List String) : Config :=
  { Path := "w/", Commands := commands, Exclude := [], Include := [],
    Logfile := "/t.log" }

/-- The watched directory `/w` with `a`, whose content is not recorded, and
`b`, whose content `x` is recorded. -/
def worldAB : World :=
  worldOf [⟨"/w/", "b", "x", 1⟩]
    [(["w"], .dir 1), (["w", "a"], .file "new" 5), (["w", "b"], .file "x" 1)]

/-- The watched directory `/w` with `a`, whose content is not recorded, and
the file `w.log`, whose content is recorded. -/
def worldLogScanned : World :=
  worldOf [⟨"/w/", "w.log", "old\n", 1⟩]
    [(["w"], .dir 1), (["w", "a"], .file "new" 5), (["w", "w.log"], .file "old\n" 1)]

/-- The watched directory `/w` with `a`, whose content `v1` is recorded, and
`b`, whose content is not recorded. -/
def worldRecordedA : World :=
  worldOf [⟨"/w/", "a", "v1", 7⟩]
    [(["w"], .dir 1), (["w", "a"], .file "v1" 7), (["w", "b"], .file "x" 1)]

/-- An empty table and a disk that holds only the log file `/t.log`, with
one line in it. -/
def worldLogged : World := worldOf [] [(["t.log"], .file "old\n" 3)]

/-- The watched directory `/w` with the single file `a`, whose content `v1`
is recorded. -/
def worldSettled : World :=
  worldOf [⟨"/w/", "a", "v1", 7⟩] [(["w"], .dir 1), (["w", "a"], .file "v1" 7)]

/-- The watched directory `/w` with `a` and `w.log`, each with its content
recorded. -/
def worldSettledLogInside : World :=
  worldOf [⟨"/w/", "a", "v1", 7⟩, ⟨"/w/", "w.log", "old\n", 8⟩]
    [(["w"], .dir 1), (["w", "a"], .file "v1" 7), (["w", "w.log"], .file "old\n" 8)]

/-! ## Vocabulary for the statements -/

/-- The scan result in the words of the specification: the names, in listing
order, of the entries that are not directories and for which no exclude
pattern matches the name or some include pattern matches it. -/
def scanSpec (env : Env) (config : Config) (es : List DirEntry) : List String :=
  (es.filter (fun v =>
      !v.IsDir &&
        (!(config.Exclude.any (fun p => env.MatchString p v.Name)) ||
          config.Include.any (fun p => env.MatchString p v.Name)))).map
    (fun v => v.Name)

/-- Whether an event is a spawned command. -/
def Event.isSpawn : Event → Bool
  | .spawn _ _ _ _ _ => true
  | _ => false

/-- Whether an event is a spawned command that ended in an error. -/
def Event.failed : Event → Bool
  | .spawn _ _ _ _ (some _) => true
  | _ => false

/-- The program name followed by the arguments of a spawned command. -/
def Event.argv : Event → List String
  | .spawn _ prog args _ _ => prog :: args
  | _ => []

/-- The captured output of a spawned command. -/
def Event.out : Event → String
  | .spawn _ _ _ out _ => out
  | _ => ""

/-- The error texts of a spawned command: one when it failed, else none. -/
def Event.errors : Event → List String
  | .spawn _ _ _ _ (some e) => [e.Error]
  | _ => []

/-- The lines a spawned command hands to the log: its output, then its
error when it has one. -/
def Event.logLines (e : Event) : List String :=
  e.out :: e.errors

/-- Whether an event is a pipeline start or an insert. -/
def Event.isMark : Event → Bool
  | .pipeline _ => true
  | .commit _ _ _ => true
  | _ => false

/-- Whether a command result is a failure of either kind. -/
def CmdResult.failed : CmdResult → Bool
  | .ok _ _ => false
  | .exit _ _ _ => true
  | .start _ => true

/-- The disk a command leaves behind, given the disk it started on. -/
def CmdResult.diskAfter : CmdResult → Disk → Disk
  | .ok _ d, _ => d
  | .exit _ _ d, _ => d
  | .start _, d => d

/-- The result of running the command string `c` at a given time, disk and
working directory. -/
def runCommand (env : Env) (c : String) (time : Nat) (d : Disk) (cwd : List String) :
    CmdResult :=
  env.Output time d cwd ((stringsSplit c).headD "") (stringsSplit c).tail

/-- The on-disk content of a file of the target, empty when it cannot be
read. -/
def diskContent (w : World) (config : Config) (file : String) : String :=
  match osReadFile w.disk w.cwd (config.Path ++ file) with
  | .ok c => c
  | .error _ => ""

/-- Whether the on-disk content of a file differs from its latest recorded
content in the given state. -/
def changedAt (env : Env) (w : World) (config : Config) (file : String) : Bool :=
  contentDiffers (getLatestVersion env file config w).1 (diskContent w config file)

/-- The pieces joined again, with one `sep` between neighbours. -/
def joinChars (sep : Char) : List (List Char) → List Char
  | [] => []
  | [p] => p
  | p :: q :: r => p ++ sep :: joinChars sep (q :: r)

/-- The number of pipeline starts in a history. -/
def pipelineCount (t : List Event) : Nat :=
  (t.filter (fun e => match e with | .pipeline _ => true | _ => false)).length

/-- The calls of checkChanges of n cycles in a row over the same scan result. -/
def checkChangesTimes (env : Env) (files : List String) (config : Config) :
    Nat → World → Result Unit
  | 0, w => .ok () w
  | n + 1, w =>
    match checkChanges env files config w with
    | .fatal e w1 => .fatal e w1
    | .ok _ w1 => checkChangesTimes env files config n w1

/-- The state in which saveChangesToDb is entered for a changed file: after
the latest version was fetched, the file was read, and the pipeline ran. -/
def atPipelineEnd (env : Env) (file : String) (config : Config) (w : World) : World :=
  (execCommands env config
    (writeErrorLog env none config (getLatestVersion env file config w).2)).world

/-- The state after one turn of the loop of execCommands (lines 76-82) on the
command `prog args`. -/
def afterCommand (env : Env) (config : Config) (prog : String) (args : List String)
    (w : World) : World :=
  logErr ((cmdOutput env prog args (osChdir config.Path w)).2.1.map CmdErr.Error)
    (writeErrorLog env ((cmdOutput env prog args (osChdir config.Path w)).2.1.map CmdErr.Error)
      config
      (writeLog env (cmdOutput env prog args (osChdir config.Path w)).1 config
        (cmdOutput env prog args (osChdir config.Path w)).2.2))

/-- What a call of writeLog or writeErrorLog on the log file `kL` may do to
the disk: directories stay directories, and a file at another path keeps
its content and time. -/
def LogStep (kL : List String) (d d1 : Disk) : Prop :=
  (∀ k, isDir d1 k = isDir d k) ∧
  (∀ k c t, k ≠ kL → (nodeAt d1 k = some (.file c t) ↔ nodeAt d k = some (.file c t))) ∧
  ((∃ c t, nodeAt d kL = some (.file c t)) → ∃ c t, nodeAt d1 kL = some (.file c t)) ∧
  (∀ kd, (nodeAt d kL ≠ none ∨ kL.dropLast ≠ kd) → dirEntries d1 kd = dirEntries d kd)

/-- What a call of writeLog or writeErrorLog by a target whose log file is
`kL` may do to the state: it leaves the table, the working directory, the
standard output and the history alone. -/
def LogOp (kL : List String) (w w1 : World) : Prop :=
  w1.db = w.db ∧ w1.cwd = w.cwd ∧ w1.stdout = w.stdout ∧ w1.trace = w.trace ∧
    LogStep kL w.disk w1.disk

/-- What a call of writeErrorLog with a nil error may do: it writes nothing,
and at most creates the log file, so every file keeps its content. -/
def TouchOp (kL : List String) (w w1 : World) : Prop :=
  LogOp kL w w1 ∧ w1.logged = w.logged ∧ w1.stderr = w.stderr ∧
    ∀ k c t, nodeAt w.disk k = some (.file c t) → nodeAt w1.disk k = some (.file c t)

/-- What any number of log calls on the log files `LK` may have done to the
disk `d0`: directories stay directories, a file at a path that is no log
file keeps its content and time, a log file that was there is still there,
and a directory in which no log file had to be created lists the same
entries. -/
def LogSteps (LK : List (List String)) (d0 d : Disk) : Prop :=
  (∀ k, isDir d k = isDir d0 k) ∧
  (∀ k c t, k ∉ LK → (nodeAt d k = some (.file c t) ↔ nodeAt d0 k = some (.file c t))) ∧
  (∀ k ∈ LK, nodeAt d0 k ≠ none → nodeAt d k ≠ none) ∧
  (∀ kd, (∀ k ∈ LK, nodeAt d0 k ≠ none ∨ k.dropLast ≠ kd) →
    dirEntries d kd = dirEntries d0 kd)

/-- A state that differs from `w0` by log calls on the log files `LK` only. -/
def Idle (LK : List (List String)) (w0 w : World) : Prop :=
  w.db = w0.db ∧ w.trace = w0.trace ∧ w.cwd = w0.cwd ∧ w.stdout = w0.stdout ∧
    LogSteps LK w0.disk w.disk

/-! ## The disk under the writes of the program -/

theorem lookup_mapNode (d : Disk) (k k1 : List String) (g : Node → Node) :
    (mapNode d k g).lookup k1 = if k1 = k then (d.lookup k1).map g else d.lookup k1 := by
  induction d with
  | nil => simp [mapNode]
  | cons e es ih =>
    obtain ⟨a, n⟩ := e
    have hcons : mapNode ((a, n) :: es) k g
        = (if a = k then (a, g n) else (a, n)) :: mapNode es k g := rfl
    rw [hcons]
    by_cases h1 : k1 = a
    · subst h1
      by_cases ha : k1 = k
      · simp [ha, List.lookup_cons]
      · simp [ha, List.lookup_cons]
    · have hb : (k1 == a) = false := by simpa using h1
      by_cases ha : a = k
      · simp only [if_pos ha, List.lookup_cons, hb]
        exact ih
      · simp only [if_neg ha, List.lookup_cons, hb]
        exact ih

theorem nodeAt_mapNode_ne (d : Disk) (k k1 : List String) (g : Node → Node) (h : k1 ≠ k) :
    nodeAt (mapNode d k g) k1 = nodeAt d k1 := by
  simp [nodeAt, lookup_mapNode, h]

theorem nodeAt_mapNode_self (d : Disk) (k : List String) (g : Node → Node) :
    nodeAt (mapNode d k g) k =
      match d.lookup k with
      | some n => some (g n)
      | none => nodeAt d k := by
  simp only [nodeAt, lookup_mapNode, if_true]
  cases hl : d.lookup k with
  | some n => simp
  | none => simp

theorem lookup_of_nodeAt_file (d : Disk) (k : List String) (c : String) (t : Nat)
    (h : nodeAt d k = some (.file c t)) : d.lookup k = some (.file c t) := by
  unfold nodeAt at h
  cases hl : d.lookup k with
  | some n => simpa [hl] using h
  | none =>
    simp only [hl] at h
    split at h <;> simp at h

theorem isDir_mapNode (d : Disk) (k k1 : List String) (g : Node → Node)
    (hg : ∀ n, (g n).isDir = n.isDir) :
    isDir (mapNode d k g) k1 = isDir d k1 := by
  by_cases h : k1 = k
  · subst h
    unfold isDir
    rw [nodeAt_mapNode_self]
    cases hl : d.lookup k1 with
    | none => rfl
    | some n =>
      have hn : nodeAt d k1 = some n := by simp [nodeAt, hl]
      rw [hn]
      have := hg n
      cases n with
      | file c t =>
        cases hgn : g (.file c t) with
        | file c1 t1 => simp [hgn]
        | dir t1 => rw [hgn] at this; simp [Node.isDir] at this
      | dir t =>
        cases hgn : g (.dir t) with
        | file c1 t1 => rw [hgn] at this; simp [Node.isDir] at this
        | dir t1 => simp [hgn]
  · unfold isDir
    rw [nodeAt_mapNode_ne d k k1 g h]

theorem dirEntries_mapNode (d : Disk) (k kd : List String) (g : Node → Node)
    (hg : ∀ n, (g n).isDir = n.isDir) :
    dirEntries (mapNode d k g) kd = dirEntries d kd := by
  induction d with
  | nil => rfl
  | cons e es ih =>
    unfold dirEntries mapNode at ih ⊢
    simp only [List.map_cons, List.filter_cons]
    by_cases he : e.1 = k
    · simp only [if_pos he]
      split <;> simp_all
    · simp only [if_neg he]
      split <;> simp_all

theorem bump_isDir (now : Nat) (n : Node) : (Node.bump now n).isDir = n.isDir := by
  cases n <;> rfl

theorem append_isDir (text : String) (now : Nat) (n : Node) :
    (Node.append text now n).isDir = n.isDir := by
  cases n <;> rfl

theorem nodeAt_bump_file (d : Disk) (k k1 : List String) (now : Nat) (c : String) (t : Nat) :
    nodeAt (mapNode d k (Node.bump now)) k1 = some (.file c t) ↔
      nodeAt d k1 = some (.file c t) := by
  by_cases h : k1 = k
  · subst h
    simp only [nodeAt, lookup_mapNode, if_true]
    cases hl : d.lookup k1 with
    | some n => cases n <;> simp [Node.bump]
    | none => simp
  · rw [nodeAt_mapNode_ne d k k1 _ h]

theorem nodeAt_snoc (d : Disk) (k k1 : List String) (n : Node) (h : nodeAt d k = none) :
    nodeAt (d ++ [(k, n)]) k1 = if k1 = k then some n else nodeAt d k1 := by
  have hk : k ≠ [] := by
    intro hk
    simp [nodeAt, hk] at h
    cases hl : List.lookup [] d <;> simp [hl] at h
  have hlk : d.lookup k = none := by
    unfold nodeAt at h
    cases hl : d.lookup k with
    | none => rfl
    | some x => simp [hl] at h
  unfold nodeAt
  rw [List.lookup_append]
  by_cases h1 : k1 = k
  · subst h1
    simp [hlk, List.lookup_cons]
  · have : (k1 == k) = false := by simpa using h1
    cases hl : d.lookup k1 with
    | some x => simp [h1]
    | none => simp [List.lookup_cons, this, h1]

theorem dirEntries_snoc (d : Disk) (k kd : List String) (n : Node) (h : k.dropLast ≠ kd) :
    dirEntries (d ++ [(k, n)]) kd = dirEntries d kd := by
  simp [dirEntries, List.filter_append, List.filter_cons, h]

theorem walk_congr (d d1 : Disk) (h : ∀ k, isDir d1 k = isDir d k) :
    ∀ (comps cur : List String), walk d1 cur comps = walk d cur comps := by
  intro comps
  induction comps with
  | nil => intro cur; rfl
  | cons c rest ih =>
    intro cur
    simp only [walk, h cur, ih]

theorem resolve_congr (d d1 : Disk) (h : ∀ k, isDir d1 k = isDir d k) (cwd : List String)
    (p : String) : resolve d1 cwd p = resolve d cwd p := by
  simp only [resolve, walk_congr d d1 h]

theorem walk_eq_some (d : Disk) :
    ∀ (comps cur k : List String), walk d cur comps = some k → k = comps.foldl lexStep cur := by
  intro comps
  induction comps with
  | nil => intro cur k h; simpa [walk] using h.symm
  | cons c rest ih =>
    intro cur k h
    simp only [walk] at h
    split at h
    · simpa using ih _ _ h
    · cases h

theorem resolve_eq_some (d : Disk) (cwd : List String) (p : String) (k : List String)
    (h : resolve d cwd p = some k) : k = lexKey cwd p := by
  unfold resolve at h
  split at h
  · cases h
  · exact walk_eq_some d _ _ _ h

/-- What opening the log file does to the disk. -/
theorem osOpenFile_spec (d : Disk) (cwd : List String) (p : String) (now : Nat)
    (k : List String) (d1 : Disk) (h : osOpenFile d cwd p now = some (k, d1)) :
    k = lexKey cwd p ∧ LogStep k d d1 ∧
      (∀ k1 c t, nodeAt d k1 = some (.file c t) → nodeAt d1 k1 = some (.file c t)) ∧
      (∃ c t, nodeAt d1 k = some (.file c t)) := by
  unfold osOpenFile at h
  cases hr : resolve d cwd p with
  | none => simp [hr] at h
  | some k0 =>
    have hk0 := resolve_eq_some d cwd p k0 hr
    simp only [hr] at h
    cases hn : nodeAt d k0 with
    | some n =>
      cases n with
      | file c t =>
        simp only [hn, Option.some.injEq, Prod.mk.injEq] at h
        obtain ⟨rfl, rfl⟩ := h
        exact ⟨hk0, ⟨fun _ => rfl, fun _ _ _ _ => Iff.rfl, fun hx => hx, fun _ _ => rfl⟩,
          fun _ _ _ hx => hx, ⟨c, t, hn⟩⟩
      | dir t => simp [hn] at h
    | none =>
      simp only [hn] at h
      split at h
      · simp only [Option.some.injEq, Prod.mk.injEq] at h
        obtain ⟨rfl, rfl⟩ := h
        have hb : nodeAt (mapNode d k0.dropLast (Node.bump now)) k0 = none := by
          cases hx : nodeAt (mapNode d k0.dropLast (Node.bump now)) k0 with
          | none => rfl
          | some n =>
            cases n with
            | file c t => rw [nodeAt_bump_file] at hx; rw [hn] at hx; cases hx
            | dir t =>
              have h1 : isDir (mapNode d k0.dropLast (Node.bump now)) k0 = true := by
                simp [isDir, hx]
              rw [isDir_mapNode d _ _ _ (bump_isDir now)] at h1
              simp [isDir, hn] at h1
        have hfile : ∀ k1 c t,
            nodeAt (mapNode d k0.dropLast (Node.bump now) ++ [(k0, Node.file "" now)]) k1
              = some (.file c t) ↔
            (if k1 = k0 then (c = "" ∧ t = now) else nodeAt d k1 = some (.file c t)) := by
          intro k1 c t
          rw [nodeAt_snoc _ _ _ _ hb]
          by_cases h1 : k1 = k0
          · simp only [h1, if_true, Option.some.injEq, Node.file.injEq]
            exact ⟨fun ⟨a, b⟩ => ⟨a.symm, b.symm⟩, fun ⟨a, b⟩ => ⟨a.symm, b.symm⟩⟩
          · simp only [h1, if_false]
            exact nodeAt_bump_file d _ _ now c t
        refine ⟨hk0, ⟨?_, ?_, ?_, ?_⟩, ?_, ?_⟩
        · intro k1
          unfold isDir
          rw [nodeAt_snoc _ _ _ _ hb]
          by_cases h1 : k1 = k0
          · simp [h1, hn]
          · simp only [h1, if_false]
            exact isDir_mapNode d _ _ _ (bump_isDir now)
        · intro k1 c t h1
          rw [hfile]
          simp [h1]
        · intro _
          exact ⟨"", now, (hfile k0 "" now).2 (by simp)⟩
        · intro kd hkd
          rcases hkd with hkd | hkd
          · exact absurd hn hkd
          · rw [dirEntries_snoc _ _ _ _ hkd, dirEntries_mapNode _ _ _ _ (bump_isDir now)]
        · intro k1 c t hx
          rw [hfile]
          by_cases h1 : k1 = k0
          · rw [h1, hn] at hx; cases hx
          · simpa [h1] using hx
        · exact ⟨"", now, (hfile k0 "" now).2 (by simp)⟩
      · cases h

/-- What appending to an open log file does to the disk. -/
theorem append_logStep (d : Disk) (k : List String) (text : String) (now : Nat) :
    LogStep k d (mapNode d k (Node.append text now)) := by
  refine ⟨?_, ?_, ?_, ?_⟩
  · intro k1
    exact isDir_mapNode d k k1 _ (append_isDir text now)
  · intro k1 c t h1
    rw [nodeAt_mapNode_ne d k k1 _ h1]
  · rintro ⟨c, t, hc⟩
    refine ⟨c ++ text, now, ?_⟩
    have hlk := lookup_of_nodeAt_file d k c t hc
    rw [nodeAt_mapNode_self, hlk]
    rfl
  · intro kd _
    exact dirEntries_mapNode d k kd _ (append_isDir text now)

theorem LogStep_refl (k : List String) (d : Disk) : LogStep k d d :=
  ⟨fun _ => rfl, fun _ _ _ _ => Iff.rfl, fun h => h, fun _ _ => rfl⟩

theorem LogStep_trans (k : List String) (d d1 d2 : Disk) (h1 : LogStep k d d1)
    (h2 : LogStep k d1 d2) : LogStep k d d2 := by
  obtain ⟨a1, b1, c1, e1⟩ := h1
  obtain ⟨a2, b2, c2, e2⟩ := h2
  refine ⟨fun k1 => (a2 k1).trans (a1 k1), fun k1 c t hk => (b2 k1 c t hk).trans (b1 k1 c t hk),
    fun hx => c2 (c1 hx), ?_⟩
  intro kd hkd
  rw [e2 kd, e1 kd hkd]
  rcases hkd with hkd | hkd
  · left
    cases hn : nodeAt d k with
    | none => exact absurd hn hkd
    | some n =>
      cases n with
      | file c t =>
        obtain ⟨c1x, t1x, hx⟩ := c1 ⟨c, t, hn⟩
        simp [hx]
      | dir t =>
        have hd : isDir d k = true := by simp [isDir, hn]
        rw [← a1 k] at hd
        intro hnone
        simp [isDir, hnone] at hd
  · right; exact hkd

theorem LogStep_of_eq (k k1 : List String) (d d1 : Disk) (h : k = k1) (s : LogStep k d d1) :
    LogStep k1 d d1 := h ▸ s

/-! ## The log calls -/

theorem LogOp_refl (kL : List String) (w : World) : LogOp kL w w :=
  ⟨rfl, rfl, rfl, rfl, LogStep_refl kL w.disk⟩

theorem LogOp_trans (kL : List String) (w w1 w2 : World) (h1 : LogOp kL w w1)
    (h2 : LogOp kL w1 w2) : LogOp kL w w2 := by
  obtain ⟨a1, b1, c1, e1, s1⟩ := h1
  obtain ⟨a2, b2, c2, e2, s2⟩ := h2
  exact ⟨a2.trans a1, b2.trans b1, c2.trans c1, e2.trans e1, LogStep_trans kL _ _ _ s1 s2⟩

theorem TouchOp_refl (kL : List String) (w : World) : TouchOp kL w w :=
  ⟨LogOp_refl kL w, rfl, rfl, fun _ _ _ h => h⟩

theorem TouchOp_trans (kL : List String) (w w1 w2 : World) (h1 : TouchOp kL w w1)
    (h2 : TouchOp kL w1 w2) : TouchOp kL w w2 := by
  obtain ⟨a1, b1, c1, e1⟩ := h1
  obtain ⟨a2, b2, c2, e2⟩ := h2
  exact ⟨LogOp_trans kL _ _ _ a1 a2, b2.trans b1, c2.trans c1,
    fun k c t h => e2 k c t (e1 k c t h)⟩

theorem writeErrorLog_none_touch (env : Env) (cfg : Config) (w : World) :
    TouchOp (lexKey w.cwd cfg.Logfile) w (writeErrorLog env none cfg w) := by
  unfold writeErrorLog
  cases ho : osOpenFile w.disk w.cwd cfg.Logfile (env.Now w.trace.length) with
  | none => exact TouchOp_refl _ w
  | some r =>
    obtain ⟨k, d1⟩ := r
    obtain ⟨hk, hstep, hkeep, _⟩ := osOpenFile_spec _ _ _ _ _ _ ho
    subst hk
    exact ⟨⟨rfl, rfl, rfl, rfl, hstep⟩, rfl, rfl, hkeep⟩

theorem writeErrorLog_some_op (env : Env) (e : String) (cfg : Config) (w : World) :
    LogOp (lexKey w.cwd cfg.Logfile) w (writeErrorLog env (some e) cfg w) ∧
      (writeErrorLog env (some e) cfg w).stderr = w.stderr ∧
      ∃ key, (writeErrorLog env (some e) cfg w).logged = w.logged ++ [⟨cfg.Logfile, e, key⟩] ∧
        ∀ k, key = some k → ∃ c t,
          nodeAt (writeErrorLog env (some e) cfg w).disk k = some (.file (c ++ (e ++ "\n")) t) := by
  unfold writeErrorLog
  cases ho : osOpenFile w.disk w.cwd cfg.Logfile (env.Now w.trace.length) with
  | none => exact ⟨LogOp_refl _ w, rfl, none, rfl, fun k hk => by cases hk⟩
  | some r =>
    obtain ⟨k, d1⟩ := r
    obtain ⟨hk, hstep, _, c, t, hfile⟩ := osOpenFile_spec _ _ _ _ _ _ ho
    subst hk
    refine ⟨⟨rfl, rfl, rfl, rfl,
      LogStep_trans _ _ _ _ hstep (append_logStep d1 _ _ _)⟩, rfl, some _, rfl, ?_⟩
    intro k hk
    cases hk
    refine ⟨c, env.Now w.trace.length, ?_⟩
    show nodeAt (mapNode d1 _ _) _ = _
    rw [nodeAt_mapNode_self, lookup_of_nodeAt_file d1 _ c t hfile]
    rfl

theorem writeLog_op (env : Env) (note : String) (cfg : Config) (w : World) :
    LogOp (lexKey w.cwd cfg.Logfile) w (writeLog env note cfg w) ∧
      ∃ key, (writeLog env note cfg w).logged = w.logged ++ [⟨cfg.Logfile, note, key⟩] ∧
        (writeLog env note cfg w).stderr =
          w.stderr ++ (if key = none then ["invalid argument"] else []) ∧
        ∀ k, key = some k → ∃ c t,
          nodeAt (writeLog env note cfg w).disk k = some (.file (c ++ (note ++ "\n")) t) := by
  unfold writeLog
  cases ho : osOpenFile w.disk w.cwd cfg.Logfile (env.Now w.trace.length) with
  | none =>
    exact ⟨⟨rfl, rfl, rfl, rfl, LogStep_refl _ _⟩, none, rfl, by simp [logErr],
      fun k hk => by cases hk⟩
  | some r =>
    obtain ⟨k, d1⟩ := r
    obtain ⟨hk, hstep, _, c, t, hfile⟩ := osOpenFile_spec _ _ _ _ _ _ ho
    subst hk
    refine ⟨⟨rfl, rfl, rfl, rfl,
      LogStep_trans _ _ _ _ hstep (append_logStep d1 _ _ _)⟩, some _, rfl, by simp, ?_⟩
    intro k hk
    cases hk
    refine ⟨c, env.Now w.trace.length, ?_⟩
    show nodeAt (mapNode d1 _ _) _ = _
    rw [nodeAt_mapNode_self, lookup_of_nodeAt_file d1 _ c t hfile]
    rfl

/-! ## Reading the disk after a log call -/

theorem osReadFile_logStep (kL : List String) (d d1 : Disk) (c : List String) (p : String)
    (h : LogStep kL d d1) (hne : lexKey c p ≠ kL) :
    osReadFile d1 c p = osReadFile d c p := by
  obtain ⟨hdir, hfile, _, _⟩ := h
  unfold osReadFile
  rw [resolve_congr d d1 hdir]
  cases hr : resolve d c p with
  | none => rfl
  | some k =>
    have hk := resolve_eq_some d c p k hr
    have hkne : k ≠ kL := by rw [hk]; exact hne
    simp only
    cases hn : nodeAt d k with
    | none =>
      cases hn1 : nodeAt d1 k with
      | none => rfl
      | some n =>
        cases n with
        | file cc t => rw [hfile k cc t hkne, hn] at hn1; cases hn1
        | dir t =>
          have : isDir d1 k = true := by simp [isDir, hn1]
          rw [hdir] at this
          simp [isDir, hn] at this
    | some n =>
      cases n with
      | file cc t => rw [(hfile k cc t hkne).2 hn]
      | dir t =>
        have : isDir d1 k = true := by rw [hdir]; simp [isDir, hn]
        cases hn1 : nodeAt d1 k with
        | none => simp [isDir, hn1] at this
        | some n1 =>
          cases n1 with
          | file cc t1 => simp [isDir, hn1] at this
          | dir t1 => rfl

theorem osReadFile_keep (d d1 : Disk) (c : List String) (p : String) (C : String)
    (hdir : ∀ k, isDir d1 k = isDir d k)
    (hkeep : ∀ k c t, nodeAt d k = some (.file c t) → nodeAt d1 k = some (.file c t))
    (h : osReadFile d c p = .ok C) : osReadFile d1 c p = .ok C := by
  unfold osReadFile at h ⊢
  rw [resolve_congr d d1 hdir]
  cases hr : resolve d c p with
  | none => simp [hr] at h
  | some k =>
    simp only [hr] at h
    simp only
    cases hn : nodeAt d k with
    | none => simp [hn] at h
    | some n =>
      cases n with
      | file cc t =>
        simp only [hn, Except.ok.injEq] at h
        subst h
        rw [hkeep k cc t hn]
      | dir t => simp [hn] at h

theorem osReadFile_touch (kL : List String) (w w1 : World) (p : String) (C : String)
    (h : TouchOp kL w w1) (hr : osReadFile w.disk w.cwd p = .ok C) :
    osReadFile w1.disk w1.cwd p = .ok C := by
  obtain ⟨⟨_, hcwd, _, _, hstep⟩, _, _, hkeep⟩ := h
  rw [hcwd]
  exact osReadFile_keep _ _ _ _ _ hstep.1 hkeep hr

theorem osStat_of_read (d : Disk) (c : List String) (p : String) (C : String)
    (h : osReadFile d c p = .ok C) : ∃ t, osStat d c p = .ok ⟨t, false⟩ := by
  unfold osReadFile at h
  unfold osStat
  cases hr : resolve d c p with
  | none => simp [hr] at h
  | some k =>
    simp only [hr] at h
    simp only
    cases hn : nodeAt d k with
    | none => simp [hn] at h
    | some n =>
      cases n with
      | file cc t => exact ⟨t, rfl⟩
      | dir t => simp [hn] at h

theorem isAbs_append (p f : String) (h : isAbs p = true) : isAbs (p ++ f) = true := by
  unfold isAbs at h ⊢
  have happ : (p ++ f).toList = p.toList ++ f.toList := by simp [String.toList]
  rw [happ]
  cases hp : p.toList with
  | nil => rw [hp] at h; simp at h
  | cons a as =>
    rw [hp] at h
    simpa using h

theorem lexKey_abs (p : String) (h : isAbs p = true) (c : List String) :
    lexKey c p = lexKey [] p := by
  simp [lexKey, h]

theorem resolve_abs (d : Disk) (p : String) (h : isAbs p = true) (c c1 : List String) :
    resolve d c p = resolve d c1 p := by
  simp [resolve, h]

theorem osReadFile_abs (d : Disk) (p : String) (h : isAbs p = true) (c c1 : List String) :
    osReadFile d c p = osReadFile d c1 p := by
  simp only [osReadFile, resolve_abs d p h c c1]

theorem osStat_abs (d : Disk) (p : String) (h : isAbs p = true) (c c1 : List String) :
    osStat d c p = osStat d c1 p := by
  simp only [osStat, resolve_abs d p h c c1]

/-! ## The snapshot store -/

theorem queryLatest_append_same (db : List Row) (r : Row) (path filename : String)
    (h : r.path = path ∧ r.filename = filename) :
    queryLatest (db ++ [r]) path filename = [r.file_content] := by
  simp [queryLatest, List.filter_append, List.filter_cons, h]

theorem queryLatest_append_other (db : List Row) (r : Row) (path filename : String)
    (h : ¬ (r.path = path ∧ r.filename = filename)) :
    queryLatest (db ++ [r]) path filename = queryLatest db path filename := by
  simp [queryLatest, List.filter_append, List.filter_cons, h]

theorem queryLatest_empty (db : List Row) (path filename : String)
    (h : ∀ r ∈ db, ¬ (r.path = path ∧ r.filename = filename)) :
    queryLatest db path filename = [] := by
  have : db.filter (fun r => r.path = path ∧ r.filename = filename) = [] := by
    rw [List.filter_eq_nil_iff]
    intro r hr
    have := h r hr
    simpa using this
  rw [queryLatest, this]
  rfl

theorem foldl_scan_fst (F : World → World) (l : List String) :
    ∀ (a : String) (x : World),
      (l.foldl (fun (acc : String × World) scanned => (scanned, F acc.2)) (a, x)).1
        = l.foldl (fun _ scanned => scanned) a := by
  induction l with
  | nil => intro a x; rfl
  | cons s rest ih => intro a x; simp only [List.foldl_cons]; exact ih s (F x)

theorem getLatestVersion_fst (env : Env) (f : String) (cfg : Config) (w : World) :
    (getLatestVersion env f cfg w).1
      = (queryLatest w.db cfg.Path f).foldl (fun _ scanned => scanned) "" := by
  unfold getLatestVersion
  exact foldl_scan_fst _ _ _ _

theorem getLatestVersion_db (env : Env) (f : String) (cfg : Config) (w w1 : World)
    (h : w1.db = w.db) :
    (getLatestVersion env f cfg w1).1 = (getLatestVersion env f cfg w).1 := by
  rw [getLatestVersion_fst, getLatestVersion_fst, h]

theorem getLatestVersion_append_same (env : Env) (f : String) (cfg : Config) (w w1 : World)
    (r : Row) (hdb : w1.db = w.db ++ [r]) (hr : r.path = cfg.Path ∧ r.filename = f) :
    (getLatestVersion env f cfg w1).1 = r.file_content := by
  rw [getLatestVersion_fst, hdb, queryLatest_append_same _ _ _ _ hr]
  rfl

theorem getLatestVersion_append_other (env : Env) (g : String) (cfg1 : Config)
    (w w1 : World) (r : Row) (hdb : w1.db = w.db ++ [r])
    (hr : ¬ (r.path = cfg1.Path ∧ r.filename = g)) :
    (getLatestVersion env g cfg1 w1).1 = (getLatestVersion env g cfg1 w).1 := by
  rw [getLatestVersion_fst, getLatestVersion_fst, hdb, queryLatest_append_other _ _ _ _ hr]

theorem foldl_scan_touch (env : Env) (cfg : Config) (kL : List String) (w : World)
    (l : List String) :
    ∀ (a : String) (x : World), x.cwd = w.cwd → kL = lexKey w.cwd cfg.Logfile →
      TouchOp kL w x →
      TouchOp kL w
        (l.foldl (fun (acc : String × World) scanned =>
          (scanned, writeErrorLog env none cfg acc.2)) (a, x)).2 := by
  induction l with
  | nil => intro a x _ _ h; exact h
  | cons s rest ih =>
    intro a x hcwd hk h
    simp only [List.foldl_cons]
    have ht := writeErrorLog_none_touch env cfg x
    rw [hcwd, ← hk] at ht
    exact ih s _ (ht.1.2.1.trans hcwd) hk (TouchOp_trans kL _ _ _ h ht)

theorem getLatestVersion_touch (env : Env) (f : String) (cfg : Config) (w : World) :
    TouchOp (lexKey w.cwd cfg.Logfile) w (getLatestVersion env f cfg w).2 := by
  unfold getLatestVersion
  have ht := writeErrorLog_none_touch env cfg w
  exact foldl_scan_touch env cfg _ w _ _ _ ht.1.2.1 rfl ht

theorem saveChangesToDb_ok (env : Env) (f : String) (cfg : Config) (C : String) (w : World)
    (file : FileInfo) (hstat : osStat w.disk w.cwd (cfg.Path ++ f) = .ok file) :
    ∃ w1, saveChangesToDb env f cfg C w = .ok () w1 ∧
      w1.db = w.db ++ [⟨cfg.Path, f, C, file.ModTime⟩] ∧
      w1.trace = w.trace ++ [.commit cfg.Path f C] ∧
      w1.cwd = w.cwd ∧ w1.stdout = w.stdout ∧ w1.stderr = w.stderr ∧
      w1.logged = w.logged ∧
      LogStep (lexKey w.cwd cfg.Logfile) w.disk w1.disk ∧
      ∀ k c t, nodeAt w.disk k = some (.file c t) → nodeAt w1.disk k = some (.file c t) := by
  have h1 := writeErrorLog_none_touch env cfg w
  have h2 := writeErrorLog_none_touch env cfg
    { writeErrorLog env none cfg w with
      db := (writeErrorLog env none cfg w).db ++ [⟨cfg.Path, f, C, file.ModTime⟩],
      trace := (writeErrorLog env none cfg w).trace ++ [.commit cfg.Path f C] }
  obtain ⟨⟨a1, b1, c1, e1, s1⟩, l1, r1, k1⟩ := h1
  obtain ⟨⟨a2, b2, c2, e2, s2⟩, l2, r2, k2⟩ := h2
  simp only [saveChangesToDb, hstat]
  refine ⟨_, rfl, ?_, ?_, ?_, ?_, ?_, ?_, ?_, ?_⟩
  · exact a2.trans (congrArg (fun x => x ++ [⟨cfg.Path, f, C, file.ModTime⟩]) a1)
  · exact e2.trans (congrArg (fun x => x ++ [Event.commit cfg.Path f C]) e1)
  · exact b2.trans b1
  · exact c2.trans c1
  · exact r2.trans r1
  · exact l2.trans l1
  · exact LogStep_trans _ _ _ _ s1
      (LogStep_of_eq _ _ _ _ (congrArg (fun c => lexKey c cfg.Logfile) b1) s2)
  · intro k c t h
    exact k2 k c t (k1 k c t h)

/-- C4: when the file can be stat-ed, saveChangesToDb returns; it appends
exactly one row (all earlier rows stay in place, unmodified), the latest
version of (root, f) is then exactly the saved content, and the latest
version of every other key is what it was. On the disk every file keeps its
content; at most the log file is created. -/
theorem saveChangesToDb_commit (env : Env) (f : String) (cfg : Config) (C : String)
    (w : World) (file : FileInfo)
    (hstat : osStat w.disk w.cwd (cfg.Path ++ f) = .ok file) :
    ∃ w1, saveChangesToDb env f cfg C w = .ok () w1 ∧
      w1.db = w.db ++ [⟨cfg.Path, f, C, file.ModTime⟩] ∧
      (getLatestVersion env f cfg w1).1 = C ∧
      (∀ (g : String) (cfg1 : Config), ¬ (cfg1.Path = cfg.Path ∧ g = f) →
        (getLatestVersion env g cfg1 w1).1 = (getLatestVersion env g cfg1 w).1) ∧
      (∀ k c t, nodeAt w.disk k = some (.file c t) → nodeAt w1.disk k = some (.file c t)) := by
  obtain ⟨w1, hrun, hdb, _, _, _, _, _, _, hkeep⟩ := saveChangesToDb_ok env f cfg C w file hstat
  refine ⟨w1, hrun, hdb, ?_, ?_, hkeep⟩
  · exact getLatestVersion_append_same env f cfg w w1 ⟨cfg.Path, f, C, file.ModTime⟩ hdb
      ⟨rfl, rfl⟩
  · intro g cfg1 hne
    exact getLatestVersion_append_other env g cfg1 w w1 ⟨cfg.Path, f, C, file.ModTime⟩ hdb
      (fun h => hne ⟨h.1.symm, h.2.symm⟩)

/-- Instance of C4: a second version of `/w/a` is saved over a first one. -/
theorem saveChangesToDb_commit_witness :
    osStat (worldOf [⟨"/w/", "a", "v1", 3⟩] [(["w"], .dir 1), (["w", "a"], .file "v2" 7)]).disk
        (worldOf [⟨"/w/", "a", "v1", 3⟩] [(["w"], .dir 1), (["w", "a"], .file "v2" 7)]).cwd
        ((targetW []).Path ++ "a")
      = .ok ⟨7, false⟩ ∧
    ∃ w1, saveChangesToDb envEcho "a" (targetW []) "v2"
          (worldOf [⟨"/w/", "a", "v1", 3⟩] [(["w"], .dir 1), (["w", "a"], .file "v2" 7)])
        = .ok () w1 ∧
      w1.db = (worldOf [⟨"/w/", "a", "v1", 3⟩]
          [(["w"], .dir 1), (["w", "a"], .file "v2" 7)]).db
        ++ [⟨(targetW []).Path, "a", "v2", (FileInfo.mk 7 false).ModTime⟩] ∧
      (getLatestVersion envEcho "a" (targetW []) w1).1 = "v2" ∧
      (∀ (g : String) (cfg1 : Config), ¬ (cfg1.Path = (targetW []).Path ∧ g = "a") →
        (getLatestVersion envEcho g cfg1 w1).1
          = (getLatestVersion envEcho g cfg1
              (worldOf [⟨"/w/", "a", "v1", 3⟩]
                [(["w"], .dir 1), (["w", "a"], .file "v2" 7)])).1) ∧
      (∀ k c t,
        nodeAt (worldOf [⟨"/w/", "a", "v1", 3⟩]
            [(["w"], .dir 1), (["w", "a"], .file "v2" 7)]).disk k = some (.file c t) →
          nodeAt w1.disk k = some (.file c t)) :=
  ⟨rfl,
    saveChangesToDb_commit envEcho "a" (targetW []) "v2"
      (worldOf [⟨"/w/", "a", "v1", 3⟩] [(["w"], .dir 1), (["w", "a"], .file "v2" 7)])
      ⟨7, false⟩ rfl⟩

/-! ## The directory scanner -/

theorem foldl_exclude (m : String → Bool) (l : List String) (b : Bool) :
    l.foldl (fun a p => if m p then false else a) b = (b && !l.any m) := by
  induction l generalizing b with
  | nil => simp
  | cons p ps ih =>
    simp only [List.foldl_cons, ih, List.any_cons]
    cases m p <;> cases b <;> simp

theorem foldl_include (m : String → Bool) (l : List String) (b : Bool) :
    l.foldl (fun a p => if m p then true else a) b = (b || l.any m) := by
  induction l generalizing b with
  | nil => simp
  | cons p ps ih =>
    simp only [List.foldl_cons, ih, List.any_cons]
    cases m p <;> cases b <;> simp

theorem applyPatterns_true (env : Env) (cfg : Config) (name : String) :
    applyPatterns env cfg name true =
      (!(cfg.Exclude.any (fun p => env.MatchString p name)) ||
        cfg.Include.any (fun p => env.MatchString p name)) := by
  unfold applyPatterns
  rw [foldl_exclude (fun p => env.MatchString p name),
    foldl_include (fun p => env.MatchString p name)]
  simp

theorem scanSpec_cons (env : Env) (cfg : Config) (v : DirEntry) (es : List DirEntry) :
    scanSpec env cfg (v :: es) =
      (if !v.IsDir && applyPatterns env cfg v.Name true then [v.Name] else []) ++
        scanSpec env cfg es := by
  simp only [scanSpec, List.filter_cons, applyPatterns_true]
  split <;> simp

theorem readDirLoop_eq (env : Env) (cfg : Config) (es : List DirEntry) :
    ∀ (files : List String) (w : World),
      readDirLoop env cfg es files true w =
        (files ++ scanSpec env cfg es,
          (scanSpec env cfg es).foldl
            (fun acc n => writeLog env ("File tracked: " ++ n) cfg acc) w) := by
  induction es with
  | nil => intro files w; simp [readDirLoop, scanSpec]
  | cons v rest ih =>
    intro files w
    rw [readDirLoop, scanSpec_cons]
    cases hd : v.IsDir <;> cases hp : applyPatterns env cfg v.Name true <;>
      simp [ih, List.append_assoc]

theorem readDir_eq (env : Env) (cfg : Config) (w : World) (k : List String)
    (es : List DirEntry) (hopen : osOpen w.disk w.cwd cfg.Path = .ok k)
    (hlist : Readdir (writeErrorLog env none cfg w).disk k = .ok es) :
    readDir env cfg w = .ok (scanSpec env cfg es)
      ((scanSpec env cfg es).foldl
        (fun acc n => writeLog env ("File tracked: " ++ n) cfg acc)
        (writeErrorLog env none cfg (writeErrorLog env none cfg w))) := by
  simp [readDir, hopen, hlist, readDirLoop_eq]

/-- C6: when the directory can be opened and listed, readDir returns exactly
the names, in listing order, of the non-directory entries that no exclude
pattern matches or that some include pattern matches (and hands one line for
each to the log); the decision for an entry does not depend on the entries
around it; with no patterns at all every non-directory entry is returned.
The listing is the one taken after the log file was opened for the first
time. -/
theorem readDir_scan (env : Env) (cfg : Config) (w : World) (k : List String)
    (es : List DirEntry) (hopen : osOpen w.disk w.cwd cfg.Path = .ok k)
    (hlist : Readdir (writeErrorLog env none cfg w).disk k = .ok es) :
    readDir env cfg w = .ok
        ((es.filter (fun v =>
            !v.IsDir &&
              (!(cfg.Exclude.any (fun p => env.MatchString p v.Name)) ||
                cfg.Include.any (fun p => env.MatchString p v.Name)))).map (fun v => v.Name))
        ((scanSpec env cfg es).foldl
          (fun acc n => writeLog env ("File tracked: " ++ n) cfg acc)
          (writeErrorLog env none cfg (writeErrorLog env none cfg w))) ∧
      (∀ es1 es2 : List DirEntry,
        scanSpec env cfg (es1 ++ es2) = scanSpec env cfg es1 ++ scanSpec env cfg es2) ∧
      (cfg.Exclude = [] → cfg.Include = [] →
        scanSpec env cfg es = (es.filter (fun v => !v.IsDir)).map (fun v => v.Name)) := by
  refine ⟨readDir_eq env cfg w k es hopen hlist, ?_, ?_⟩
  · intro es1 es2
    simp [scanSpec]
  · intro hx hi
    simp [scanSpec, hx, hi]

/-- Instance of C6, the example of the specification: with exclude pattern
`.*\.log$` and include pattern `debug\.log$`, of the entries `debug.log`,
`other.log`, the directory `sub` and `main.py`, the scan returns
`debug.log` and `main.py`. -/
theorem readDir_scan_witness :
    osOpen
        (worldOf [] [(["w"], .dir 1), (["w", "debug.log"], .file "d" 2),
          (["w", "other.log"], .file "o" 3), (["w", "sub"], .dir 4),
          (["w", "main.py"], .file "m" 5)]).disk []
        (Config.mk "/w/" [] [".*\\.log$"] ["debug\\.log$"] "/t.log").Path
      = .ok ["w"] ∧
    Readdir
        (writeErrorLog envEcho none (Config.mk "/w/" [] [".*\\.log$"] ["debug\\.log$"] "/t.log")
          (worldOf [] [(["w"], .dir 1), (["w", "debug.log"], .file "d" 2),
            (["w", "other.log"], .file "o" 3), (["w", "sub"], .dir 4),
            (["w", "main.py"], .file "m" 5)])).disk ["w"]
      = .ok [⟨"debug.log", false⟩, ⟨"other.log", false⟩, ⟨"sub", true⟩, ⟨"main.py", false⟩] ∧
    (readDir envEcho (Config.mk "/w/" [] [".*\\.log$"] ["debug\\.log$"] "/t.log")
        (worldOf [] [(["w"], .dir 1), (["w", "debug.log"], .file "d" 2),
          (["w", "other.log"], .file "o" 3), (["w", "sub"], .dir 4),
          (["w", "main.py"], .file "m" 5)])
      = .ok ["debug.log", "main.py"]
          { db := []
            disk := [(["w"], .dir 1), (["w", "debug.log"], .file "d" 2),
              (["w", "other.log"], .file "o" 3), (["w", "sub"], .dir 4),
              (["w", "main.py"], .file "m" 5),
              (["t.log"], .file "File tracked: debug.log\nFile tracked: main.py\n" 100)]
            cwd := []
            logged := [⟨"/t.log", "File tracked: debug.log", some ["t.log"]⟩,
              ⟨"/t.log", "File tracked: main.py", some ["t.log"]⟩]
            stdout := []
            stderr := []
            trace := [] }) :=
  ⟨rfl, rfl,
    (readDir_scan envEcho (Config.mk "/w/" [] [".*\\.log$"] ["debug\\.log$"] "/t.log")
      (worldOf [] [(["w"], .dir 1), (["w", "debug.log"], .file "d" 2),
        (["w", "other.log"], .file "o" 3), (["w", "sub"], .dir 4),
        (["w", "main.py"], .file "m" 5)])
      ["w"]
      [⟨"debug.log", false⟩, ⟨"other.log", false⟩, ⟨"sub", true⟩, ⟨"main.py", false⟩]
      rfl rfl).1⟩

/-- The two patterns of the example lie in the fragment of the matcher, with
the answers of `regexp.MatchString`; a backslash before a letter that is not
ASCII, and an alternation, lie outside it. -/
theorem fragmentMatch_example :
    fragmentMatch ".*\\.log$" "debug.log" = some true ∧
    fragmentMatch "debug\\.log$" "debug.log" = some true ∧
    fragmentMatch ".*\\.log$" "other.log" = some true ∧
    fragmentMatch "debug\\.log$" "other.log" = some false ∧
    fragmentMatch ".*\\.log$" "main.py" = some false ∧
    fragmentMatch "debug\\.log$" "main.py" = some false ∧
    fragmentMatch "\\é" "é" = none ∧
    fragmentMatch "a|b" "a" = none := by
  decide

/-! ## Splitting a command string -/

theorem splitChars_ne_nil (sep : Char) (l : List Char) : splitChars sep l ≠ [] := by
  cases l with
  | nil => simp [splitChars]
  | cons c cs =>
    rw [splitChars]
    split
    · simp
    · split <;> simp

theorem joinChars_splitChars (sep : Char) (l : List Char) :
    joinChars sep (splitChars sep l) = l := by
  induction l with
  | nil => simp [splitChars, joinChars]
  | cons c cs ih =>
    rw [splitChars]
    by_cases hc : c = sep
    · rw [if_pos hc]
      cases hs : splitChars sep cs with
      | nil => exact absurd hs (splitChars_ne_nil sep cs)
      | cons p ps =>
        rw [hs] at ih
        simp [joinChars, ih, hc]
    · rw [if_neg hc]
      cases hs : splitChars sep cs with
      | nil => exact absurd hs (splitChars_ne_nil sep cs)
      | cons p ps =>
        rw [hs] at ih
        cases ps with
        | nil => simpa [joinChars] using ih
        | cons q r =>
          simp only [joinChars] at ih ⊢
          simp [ih]

theorem splitChars_no_sep (sep : Char) (l : List Char) :
    ∀ p ∈ splitChars sep l, sep ∉ p := by
  induction l with
  | nil => simp [splitChars]
  | cons c cs ih =>
    rw [splitChars]
    by_cases hc : c = sep
    · rw [if_pos hc]
      intro p hp
      rcases List.mem_cons.1 hp with h | h
      · simp [h]
      · exact ih p h
    · rw [if_neg hc]
      cases hs : splitChars sep cs with
      | nil => exact absurd hs (splitChars_ne_nil sep cs)
      | cons q qs =>
        rw [hs] at ih
        intro p hp
        rcases List.mem_cons.1 hp with h | h
        · subst h
          have hq := ih q (List.mem_cons_self _ _)
          intro hmem
          rcases List.mem_cons.1 hmem with h1 | h1
          · exact hc h1.symm
          · exact hq h1
        · exact ih p (List.mem_cons_of_mem _ h)

theorem splitChars_append_no_sep (sep : Char) (p : List Char) (hp : sep ∉ p)
    (l : List Char) :
    splitChars sep (p ++ l) =
      match splitChars sep l with
      | [] => [p]
      | q :: qs => (p ++ q) :: qs := by
  induction p with
  | nil =>
    cases hs : splitChars sep l with
    | nil => exact absurd hs (splitChars_ne_nil sep l)
    | cons q qs => simp [hs]
  | cons c cs ih =>
    have hc : ¬ c = sep := fun h => hp (by simp [h])
    have hcs : sep ∉ cs := fun h => hp (List.mem_cons_of_mem _ h)
    rw [List.cons_append, splitChars, if_neg hc, ih hcs]
    cases hs : splitChars sep l with
    | nil => exact absurd hs (splitChars_ne_nil sep l)
    | cons q qs => simp

theorem splitChars_joinChars (sep : Char) (ps : List (List Char)) (hne : ps ≠ [])
    (h : ∀ p ∈ ps, sep ∉ p) : splitChars sep (joinChars sep ps) = ps := by
  induction ps with
  | nil => exact absurd rfl hne
  | cons p rest ih =>
    cases rest with
    | nil =>
      have := splitChars_append_no_sep sep p (h p (List.mem_cons_self _ _)) []
      simpa [joinChars, splitChars] using this
    | cons q r =>
      have ih1 := ih (by simp) (fun x hx => h x (List.mem_cons_of_mem _ hx))
      rw [joinChars, splitChars_append_no_sep sep p (h p (List.mem_cons_self _ _))]
      rw [splitChars, if_pos rfl, ih1]
      simp

theorem intercalate_go_data (sep : String) (l : List String) :
    ∀ acc : String, (String.intercalate.go acc sep l).data =
      acc.data ++ (l.map (fun a => sep.data ++ a.data)).flatten := by
  induction l with
  | nil => intro acc; simp [String.intercalate.go]
  | cons a as ih =>
    intro acc
    rw [String.intercalate.go, ih]
    simp [String.data_append, List.append_assoc]

theorem joinChars_cons (sep : Char) (p : List Char) (ps : List (List Char)) :
    joinChars sep (p :: ps) = p ++ (ps.map (fun a => [sep] ++ a)).flatten := by
  induction ps generalizing p with
  | nil => simp [joinChars]
  | cons q r ih => rw [joinChars, ih q]; simp

theorem intercalate_space_data (l : List String) :
    (" ".intercalate l).data = joinChars ' ' (l.map String.data) := by
  cases l with
  | nil => simp [String.intercalate, joinChars]
  | cons a as =>
    rw [String.intercalate, intercalate_go_data, List.map_cons, joinChars_cons]
    simp [List.map_map, Function.comp_def]

theorem stringsSplit_ne_nil (s : String) : stringsSplit s ≠ [] := by
  simp [stringsSplit, splitChars_ne_nil]

theorem intercalate_stringsSplit (s : String) : " ".intercalate (stringsSplit s) = s := by
  apply String.ext
  rw [intercalate_space_data]
  simp only [stringsSplit, List.map_map]
  have : (String.data ∘ String.mk) = id := by funext x; rfl
  rw [this, List.map_id]
  exact joinChars_splitChars ' ' s.data

theorem stringsSplit_intercalate (ws : List String) (hne : ws ≠ [])
    (h : ∀ x ∈ ws, ' ' ∉ x.toList) : stringsSplit (" ".intercalate ws) = ws := by
  unfold stringsSplit
  rw [String.toList, intercalate_space_data, splitChars_joinChars]
  · simp [List.map_map, Function.comp_def]
  · simpa using hne
  · intro p hp
    rcases List.mem_map.1 hp with ⟨x, hx, rfl⟩
    exact h x hx

/-! ## The action runner -/

@[simp] theorem osChdir_db (p : String) (w : World) : (osChdir p w).db = w.db := by
  unfold osChdir; split <;> [split; skip] <;> rfl

@[simp] theorem osChdir_disk (p : String) (w : World) : (osChdir p w).disk = w.disk := by
  unfold osChdir; split <;> [split; skip] <;> rfl

@[simp] theorem osChdir_logged (p : String) (w : World) : (osChdir p w).logged = w.logged := by
  unfold osChdir; split <;> [split; skip] <;> rfl

@[simp] theorem osChdir_stdout (p : String) (w : World) : (osChdir p w).stdout = w.stdout := by
  unfold osChdir; split <;> [split; skip] <;> rfl

@[simp] theorem osChdir_stderr (p : String) (w : World) : (osChdir p w).stderr = w.stderr := by
  unfold osChdir; split <;> [split; skip] <;> rfl

@[simp] theorem osChdir_trace (p : String) (w : World) : (osChdir p w).trace = w.trace := by
  unfold osChdir; split <;> [split; skip] <;> rfl

theorem stringsSplit_cons (c : String) : ∃ prog args, stringsSplit c = prog :: args := by
  cases h : stringsSplit c with
  | nil => exact absurd h (stringsSplit_ne_nil c)
  | cons a b => exact ⟨a, b, rfl⟩

theorem cmdOutput_spec (env : Env) (prog : String) (args : List String) (w : World) :
    (cmdOutput env prog args w).2.2.db = w.db ∧
    (cmdOutput env prog args w).2.2.cwd = w.cwd ∧
    (cmdOutput env prog args w).2.2.logged = w.logged ∧
    (cmdOutput env prog args w).2.2.stdout = w.stdout ∧
    (cmdOutput env prog args w).2.2.stderr = w.stderr ∧
    (cmdOutput env prog args w).2.2.trace
      = w.trace ++ [.spawn w.cwd prog args (cmdOutput env prog args w).1
          (cmdOutput env prog args w).2.1] ∧
    (cmdOutput env prog args w).2.1.isSome
      = (env.Output w.trace.length w.disk w.cwd prog args).failed ∧
    (cmdOutput env prog args w).2.2.disk
      = (env.Output w.trace.length w.disk w.cwd prog args).diskAfter w.disk := by
  unfold cmdOutput
  cases env.Output w.trace.length w.disk w.cwd prog args <;>
    simp [CmdResult.failed, CmdResult.diskAfter]

theorem execLoop_cons (env : Env) (cfg : Config) (c : String) (cs : List String) (w : World)
    (prog : String) (args : List String) (hs : stringsSplit c = prog :: args) :
    execLoop env cfg (c :: cs) w =
      match (cmdOutput env prog args (osChdir cfg.Path w)).2.1 with
      | some _ => .ok () (afterCommand env cfg prog args w)
      | none => execLoop env cfg cs (afterCommand env cfg prog args w) := by
  simp only [execLoop, hs, afterCommand]

/-- One turn of the loop of execCommands: the state after the command ran
and its output and error were logged. -/
theorem afterCommand_spec (env : Env) (cfg : Config) (prog : String) (args : List String)
    (w : World) :
    (afterCommand env cfg prog args w).db = w.db ∧
    (afterCommand env cfg prog args w).trace
      = w.trace ++ [.spawn (osChdir cfg.Path w).cwd prog args
          (cmdOutput env prog args (osChdir cfg.Path w)).1
          (cmdOutput env prog args (osChdir cfg.Path w)).2.1] ∧
    (afterCommand env cfg prog args w).stdout = w.stdout ∧
    (afterCommand env cfg prog args w).cwd = (osChdir cfg.Path w).cwd ∧
    (cmdOutput env prog args (osChdir cfg.Path w)).2.1.isSome
      = (env.Output w.trace.length w.disk (osChdir cfg.Path w).cwd prog args).failed ∧
    (∃ key1, (cmdOutput env prog args (osChdir cfg.Path w)).2.1 = none →
      (afterCommand env cfg prog args w).logged
        = w.logged ++ [⟨cfg.Logfile, (cmdOutput env prog args (osChdir cfg.Path w)).1, key1⟩]) ∧
    (∀ err, (cmdOutput env prog args (osChdir cfg.Path w)).2.1 = some err →
      ∃ key1 key2,
        (afterCommand env cfg prog args w).logged
          = w.logged ++ [⟨cfg.Logfile, (cmdOutput env prog args (osChdir cfg.Path w)).1, key1⟩,
              ⟨cfg.Logfile, err.Error, key2⟩] ∧
        (afterCommand env cfg prog args w).stderr.getLast? = some err.Error ∧
        ∀ k, key2 = some k → ∃ cc t,
          nodeAt (afterCommand env cfg prog args w).disk k
            = some (.file (cc ++ (err.Error ++ "\n")) t)) := by
  obtain ⟨hdb, hcwd, hlg, hso, _, htr, hfail, _⟩ :=
    cmdOutput_spec env prog args (osChdir cfg.Path w)
  simp only [osChdir_db, osChdir_logged, osChdir_stdout, osChdir_trace, osChdir_disk]
    at hdb hlg hso htr hfail
  unfold afterCommand
  generalize cmdOutput env prog args (osChdir cfg.Path w) = r at *
  obtain ⟨out, err, wb⟩ := r
  simp only at hdb hcwd hlg hso htr hfail ⊢
  obtain ⟨⟨a1, b1, c1, e1, _⟩, key1, l1, _, _⟩ := writeLog_op env out cfg wb
  cases err with
  | none =>
    obtain ⟨⟨a2, b2, c2, e2, _⟩, l2, _, _⟩ :=
      writeErrorLog_none_touch env cfg (writeLog env out cfg wb)
    simp only [Option.map_none', logErr]
    refine ⟨by rw [a2, a1, hdb], by rw [e2, e1, htr], by rw [c2, c1, hso],
      by rw [b2, b1, hcwd], hfail, ⟨key1, fun _ => by rw [l2, l1, hlg]⟩, ?_⟩
    intro e he
    cases he
  | some e =>
    obtain ⟨⟨a2, b2, c2, e2, _⟩, _, key2, l2, hfile⟩ :=
      writeErrorLog_some_op env e.Error cfg (writeLog env out cfg wb)
    simp only [Option.map_some', logErr]
    refine ⟨by rw [a2, a1, hdb], by rw [e2, e1, htr], by rw [c2, c1, hso],
      by rw [b2, b1, hcwd], hfail, ⟨key1, fun h => by cases h⟩, ?_⟩
    intro e1 he
    cases he
    refine ⟨key1, key2, ?_, by simp, hfile⟩
    rw [l2, l1, hlg]
    simp

/-- The loop of execCommands always returns. It spawns the commands of the
list in order and stops after the first one that fails: only the last
spawned command can have failed, and when none failed the whole list was
spawned. Each spawned command hands its output to the log, and its error
when it failed; whether a spawned command failed is what the environment
answered for that command. -/
theorem execLoop_spec (env : Env) (cfg : Config) :
    ∀ (cmds : List String) (w : World),
      ∃ (w1 : World) (evs : List Event) (ls : List LogWrite),
        execLoop env cfg cmds w = .ok () w1 ∧
        w1.trace = w.trace ++ evs ∧
        w1.db = w.db ∧
        w1.logged = w.logged ++ ls ∧
        ls.map (fun l => l.line) = (evs.map Event.logLines).flatten ∧
        (∀ l ∈ ls, l.file = cfg.Logfile) ∧
        w1.stdout = (if evs.any Event.failed then w.stdout else w.stdout ++ ["Finished"]) ∧
        (∀ e ∈ evs, e.isSpawn = true) ∧
        evs.map Event.argv = (cmds.take evs.length).map stringsSplit ∧
        evs.length ≤ cmds.length ∧
        (∀ e ∈ evs.dropLast, e.failed = false) ∧
        (evs.any Event.failed = false → evs.length = cmds.length) ∧
        (∀ (i : Nat) (e : Event), evs[i]? = some e →
          ∃ (c : String) (n : Nat) (d : Disk) (cwd : List String),
            cmds[i]? = some c ∧ e.failed = (runCommand env c n d cwd).failed) ∧
        (∀ (dir : List String) (prog : String) (args : List String) (out : String)
            (err : CmdErr), Event.spawn dir prog args out (some err) ∈ evs →
          w1.stderr.getLast? = some err.Error ∧
          ∃ key, w1.logged.getLast? = some ⟨cfg.Logfile, err.Error, key⟩ ∧
            ∀ k, key = some k → ∃ cc t,
              nodeAt w1.disk k = some (.file (cc ++ (err.Error ++ "\n")) t)) := by
  intro cmds
  induction cmds with
  | nil =>
    intro w
    refine ⟨Println "Finished" w, [], [], rfl, by simp [Println], rfl, by simp [Println], rfl,
      by simp, by simp [Println], by simp, by simp, by simp, by simp, by simp, ?_, ?_⟩
    · intro i e hi
      simp at hi
    · intro dir prog args out err hmem
      simp at hmem
  | cons c cs ih =>
    intro w
    obtain ⟨prog, args, hs⟩ := stringsSplit_cons c
    have hrun : ∀ n d cwd, runCommand env c n d cwd = env.Output n d cwd prog args := by
      intro n d cwd
      simp [runCommand, hs]
    obtain ⟨hdb4, htr4, hso4, _, hfail4, ⟨key0, hlg0⟩, hsome⟩ :=
      afterCommand_spec env cfg prog args w
    have hstep := execLoop_cons env cfg c cs w prog args hs
    cases herr : (cmdOutput env prog args (osChdir cfg.Path w)).2.1 with
    | none =>
      rw [herr] at hstep htr4 hfail4
      simp only at hstep
      have hlg4 := hlg0 herr
      obtain ⟨w1, evs, ls, hrun1, htr, hdb, hlg, hlines, hfile, hout, hsp, hargv, hlen, hdl,
        hall, hlink, htail⟩ := ih (afterCommand env cfg prog args w)
      refine ⟨w1, .spawn (osChdir cfg.Path w).cwd prog args
          (cmdOutput env prog args (osChdir cfg.Path w)).1 none :: evs,
        ⟨cfg.Logfile, (cmdOutput env prog args (osChdir cfg.Path w)).1, key0⟩ :: ls,
        ?_, ?_, ?_, ?_, ?_, ?_, ?_, ?_, ?_, ?_, ?_, ?_, ?_, ?_⟩
      · rw [hstep]; exact hrun1
      · rw [htr, htr4]; simp
      · rw [hdb, hdb4]
      · rw [hlg, hlg4]; simp
      · simp [Event.logLines, Event.out, Event.errors, hlines]
      · intro l hl
        rcases List.mem_cons.1 hl with h | h
        · subst h; rfl
        · exact hfile l h
      · rw [hout, hso4]; simp [Event.failed]
      · intro e he
        rcases List.mem_cons.1 he with h | h
        · subst h; rfl
        · exact hsp e h
      · simp [Event.argv, hs, hargv]
      · simpa using hlen
      · intro e he
        cases evs with
        | nil => simp at he
        | cons e1 es =>
          rw [List.dropLast_cons₂] at he
          rcases List.mem_cons.1 he with h | h
          · subst h; rfl
          · exact hdl e h
      · intro hnone
        have : evs.any Event.failed = false := by
          simpa [Event.failed] using hnone
        simp [hall this]
      · intro i e hi
        cases i with
        | zero =>
          simp only [List.getElem?_cons_zero, Option.some.injEq] at hi
          subst hi
          refine ⟨c, w.trace.length, w.disk, (osChdir cfg.Path w).cwd, by simp, ?_⟩
          rw [hrun, ← hfail4]
          rfl
        | succ j =>
          simp only [List.getElem?_cons_succ] at hi ⊢
          exact hlink j e hi
      · intro dir prog1 args1 out1 err1 hmem
        rcases List.mem_cons.1 hmem with h | h
        · cases h
        · exact htail dir prog1 args1 out1 err1 h
    | some err =>
      rw [herr] at hstep htr4 hfail4
      simp only at hstep
      obtain ⟨key1, key2, hlg4, herr4, hfile4⟩ := hsome err herr
      refine ⟨afterCommand env cfg prog args w,
        [.spawn (osChdir cfg.Path w).cwd prog args
          (cmdOutput env prog args (osChdir cfg.Path w)).1 (some err)],
        [⟨cfg.Logfile, (cmdOutput env prog args (osChdir cfg.Path w)).1, key1⟩,
          ⟨cfg.Logfile, err.Error, key2⟩],
        hstep, htr4, hdb4, hlg4, ?_, ?_, ?_, ?_, ?_, ?_, ?_, ?_, ?_, ?_⟩
      · simp [Event.logLines, Event.out, Event.errors]
      · simp
      · simp [Event.failed, hso4]
      · simp [Event.isSpawn]
      · simp [Event.argv, hs]
      · simp
      · simp
      · simp [Event.failed]
      · intro i ev hi
        cases i with
        | zero =>
          simp only [List.getElem?_cons_zero, Option.some.injEq] at hi
          subst hi
          refine ⟨c, w.trace.length, w.disk, (osChdir cfg.Path w).cwd, by simp, ?_⟩
          rw [hrun, ← hfail4]
          rfl
        | succ j => simp at hi
      · intro dir prog1 args1 out1 err1 hmem
        simp only [List.mem_singleton, Event.spawn.injEq, Option.some.injEq] at hmem
        obtain ⟨_, _, _, _, rfl⟩ := hmem
        refine ⟨herr4, key2, ?_, hfile4⟩
        rw [hlg4]
        simp


/-! ## The content of the log file -/

theorem execCommands_spec (env : Env) (cfg : Config) (w : World) :
    ∃ (w1 : World) (evs : List Event) (ls : List LogWrite),
      execCommands env cfg w = .ok () w1 ∧
      w1.trace = w.trace ++ .pipeline cfg.Path :: evs ∧
      w1.db = w.db ∧
      w1.logged = w.logged ++ ls ∧
      ls.map (fun l => l.line) = (evs.map Event.logLines).flatten ∧
      (∀ l ∈ ls, l.file = cfg.Logfile) ∧
      w1.stdout = (if evs.any Event.failed then w.stdout else w.stdout ++ ["Finished"]) ∧
      (∀ e ∈ evs, e.isSpawn = true) ∧
      evs.map Event.argv = (cfg.Commands.take evs.length).map stringsSplit ∧
      evs.length ≤ cfg.Commands.length ∧
      (∀ e ∈ evs.dropLast, e.failed = false) ∧
      (evs.any Event.failed = false → evs.length = cfg.Commands.length) ∧
      (∀ (i : Nat) (e : Event), evs[i]? = some e →
        ∃ (c : String) (n : Nat) (d : Disk) (cwd : List String),
          cfg.Commands[i]? = some c ∧ e.failed = (runCommand env c n d cwd).failed) ∧
      (∀ (dir : List String) (prog : String) (args : List String) (out : String)
          (err : CmdErr), Event.spawn dir prog args out (some err) ∈ evs →
        w1.stderr.getLast? = some err.Error ∧
        ∃ key, w1.logged.getLast? = some ⟨cfg.Logfile, err.Error, key⟩ ∧
          ∀ k, key = some k → ∃ cc t,
            nodeAt w1.disk k = some (.file (cc ++ (err.Error ++ "\n")) t)) := by
  obtain ⟨w1, evs, ls, hrun, htr, hrest⟩ :=
    execLoop_spec env cfg cfg.Commands { w with trace := w.trace ++ [.pipeline cfg.Path] }
  exact ⟨w1, evs, ls, hrun, by simpa using htr, hrest⟩

/-- A failed event of a run whose only possible failure is the last event is
that last event. -/
theorem failed_is_last (evs : List Event) (hdl : ∀ e ∈ evs.dropLast, e.failed = false)
    (k : Nat) (e : Event) (hk : evs[k]? = some e) (hf : e.failed = true) :
    evs = evs.take k ++ [e] ∧ evs.length = k + 1 ∧ evs.dropLast = evs.take k := by
  have hlt : k < evs.length := by
    rcases Nat.lt_or_ge k evs.length with h | h
    · exact h
    · rw [List.getElem?_eq_none h] at hk; cases hk
  have hlast : k + 1 = evs.length := by
    by_contra hne
    have hk1 : k < evs.dropLast.length := by
      rw [List.length_dropLast]; omega
    have hmem : e ∈ evs.dropLast := by
      have h1 : evs.dropLast[k]? = some e := by
        rw [List.dropLast_eq_take, List.getElem?_take]
        have : k < evs.length - 1 := by simpa [List.length_dropLast] using hk1
        simp [this, hk]
      exact List.getElem?_mem h1
    rw [hdl e hmem] at hf
    cases hf
  have hdrop : evs.dropLast = evs.take k := by
    rw [List.dropLast_eq_take]
    congr 1
    omega
  refine ⟨?_, hlast.symm, hdrop⟩
  have htk : evs.take (k + 1) = evs := List.take_of_length_le (by omega)
  have := List.take_succ (l := evs) (n := k)
  rw [htk, hk] at this
  simpa using this

/-- The run of the instance above, evaluated: `B` and `A` are spawned, `C`
is not, and the log file holds its old line, the output of `B`, the output
of `A` and the error of `A`. -/
theorem execCommands_example_BAC :
    isAbs (targetW ["B", "A", "C"]).Logfile = true ∧
    osReadFile worldLogged.disk worldLogged.cwd (targetW ["B", "A", "C"]).Logfile
      = .ok "old\n" ∧
    execCommands envFailA (targetW ["B", "A", "C"]) worldLogged
      = .ok ()
          { db := []
            disk := [(["t.log"], .file "old\nB\na-out\nexit status 1\n" 103)]
            cwd := []
            logged := [⟨"/t.log", "B", some ["t.log"]⟩, ⟨"/t.log", "a-out", some ["t.log"]⟩,
              ⟨"/t.log", "exit status 1", some ["t.log"]⟩]
            stdout := []
            stderr := ["exit status 1"]
            trace := [.pipeline "/w/", .spawn [] "B" [] "B" none,
              .spawn [] "A" [] "a-out" (some (.exitError "exit status 1"))] } :=
  ⟨rfl, rfl, rfl⟩

/-- The example of the specification for the abort, run on the model: of
`[A, B, C]` with `A` failing, only `A` is spawned, and the log file holds
the output of `A` and its error. -/
theorem execCommands_example_ABC :
    execCommands envFailA (targetW ["A", "B", "C"]) worldEmpty
      = .ok ()
          { db := []
            disk := [(["t.log"], .file "a-out\nexit status 1\n" 102)]
            cwd := []
            logged := [⟨"/t.log", "a-out", some ["t.log"]⟩,
              ⟨"/t.log", "exit status 1", some ["t.log"]⟩]
            stdout := []
            stderr := ["exit status 1"]
            trace := [.pipeline "/w/",
              .spawn [] "A" [] "a-out" (some (.exitError "exit status 1"))] } :=
  rfl

/-- C8, as the code has it: execCommands never terminates the process. A
command that fails, whether it could not be started or exited with a
non-zero status, is the last one spawned; its error is the last line handed
to the log (and the last line of the log file when that file could be
opened) and the last line printed on standard error, `Finished` is not
printed, the table is untouched, and execCommands returns to its caller. -/
theorem execCommands_soft (env : Env) (cfg : Config) (w : World) :
    ∃ w1 : World,
      execCommands env cfg w = .ok () w1 ∧
      w1.db = w.db ∧
      ∀ (dir : List String) (prog : String) (args : List String) (out : String)
          (err : CmdErr),
        Event.spawn dir prog args out (some err) ∈ w1.trace.drop (w.trace.length + 1) →
          w1.trace.getLast? = some (Event.spawn dir prog args out (some err)) ∧
          (∃ key, w1.logged.getLast? = some ⟨cfg.Logfile, err.Error, key⟩ ∧
            ∀ k, key = some k → ∃ cc t,
              nodeAt w1.disk k = some (.file (cc ++ (err.Error ++ "\n")) t)) ∧
          w1.stderr.getLast? = some err.Error ∧
          w1.stdout = w.stdout := by
  obtain ⟨w1, evs, ls, hrun, htr, hdb, _, _, _, hout, _, _, _, hdl, _, _, htail⟩ :=
    execCommands_spec env cfg w
  refine ⟨w1, hrun, hdb, ?_⟩
  intro dir prog args out err hmem
  have hevs : w1.trace.drop (w.trace.length + 1) = evs := by
    rw [htr, show w.trace ++ Event.pipeline cfg.Path :: evs
        = (w.trace ++ [Event.pipeline cfg.Path]) ++ evs by simp]
    rw [List.drop_append_of_le_length (by simp)]
    simp
  rw [hevs] at hmem
  obtain ⟨k, hk⟩ := List.getElem?_of_mem hmem
  obtain ⟨hsplit, _, _⟩ := failed_is_last evs hdl k _ hk rfl
  have hany : evs.any Event.failed = true := by
    rw [List.any_eq_true]
    exact ⟨_, hmem, rfl⟩
  obtain ⟨hstderr, hlogged⟩ := htail dir prog args out err hmem
  refine ⟨?_, hlogged, hstderr, ?_⟩
  · rw [htr, hsplit, ← List.cons_append, ← List.append_assoc, List.getLast?_append]
    rfl
  · rw [hout, hany]
    simp

/-- C8 refuted as stated: a command that cannot be started does not
terminate the process; execCommands returns normally. -/
theorem execCommands_start_failure_not_fatal :
    Event.spawn [] "nosuch" ["-x"] ""
        (some (.startError "exec: nosuch: executable file not found in $PATH"))
      ∈ (execCommands envNoStart (targetW ["nosuch -x"]) worldEmpty).world.trace ∧
    (execCommands envNoStart (targetW ["nosuch -x"]) worldEmpty).isFatal = false := by
  decide

/-- A failing command under a log file that cannot be opened: both lines
handed to the log are lost, writeLog prints `invalid argument`, and the
error of the command is the last line on standard error. -/
theorem execCommands_example_no_log_file :
    execCommands envExit1 (targetNoLog ["false"]) worldSettled
      = .ok ()
          { db := [⟨"/w/", "a", "v1", 7⟩]
            disk := [(["w"], .dir 1), (["w", "a"], .file "v1" 7)]
            cwd := ["w"]
            logged := [⟨"", "", none⟩, ⟨"", "exit status 1", none⟩]
            stdout := []
            stderr := ["invalid argument", "exit status 1"]
            trace := [.pipeline "/w/",
              .spawn ["w"] "false" [] "" (some (.exitError "exit status 1"))] } :=
  rfl

/-- C9, as the code has it: the command string is cut at every single space
character. The pieces, of which there is at least one, contain no space and
joined by single spaces give the command string back; conversely a sequence
of space-free words joined by single spaces is split into exactly these
words. The first piece is the program and the rest are the arguments of
the command that is spawned. -/
theorem execCommands_split :
    (∀ c : String,
      stringsSplit c ≠ [] ∧
      " ".intercalate (stringsSplit c) = c ∧
      (∀ p ∈ stringsSplit c, ' ' ∉ p.toList) ∧
      (∀ (env : Env) (cfg : Config) (cs : List String) (w : World),
        ∃ (dir : List String) (out : String) (err : Option CmdErr) (t : List Event),
          (execLoop env cfg (c :: cs) w).world.trace =
            w.trace ++
              Event.spawn dir ((stringsSplit c).headD "") (stringsSplit c).tail out err :: t)) ∧
    (∀ ws : List String, ws ≠ [] → (∀ x ∈ ws, ' ' ∉ x.toList) →
      stringsSplit (" ".intercalate ws) = ws) := by
  refine ⟨fun c => ⟨stringsSplit_ne_nil c, intercalate_stringsSplit c, ?_, ?_⟩,
    stringsSplit_intercalate⟩
  · intro p hp
    simp only [stringsSplit, List.mem_map] at hp
    obtain ⟨q, hq, rfl⟩ := hp
    exact splitChars_no_sep ' ' c.toList q hq
  · intro env cfg cs w
    obtain ⟨w1, evs, ls, hrun, htr, _, _, _, _, _, hsp, hargv, _, _, hall, _, _⟩ :=
      execLoop_spec env cfg (c :: cs) w
    cases evs with
    | nil =>
      have := hall (by simp)
      simp at this
    | cons e t =>
      have he := hsp e (List.mem_cons_self _ _)
      cases e with
      | pipeline p => simp [Event.isSpawn] at he
      | commit p f x => simp [Event.isSpawn] at he
      | spawn dir prog args out err =>
        have h0 : prog :: args = stringsSplit c := by
          simp only [List.map_cons, List.length_cons, List.take_succ_cons, Event.argv] at hargv
          exact (List.cons.inj hargv).1
        refine ⟨dir, out, err, t, ?_⟩
        rw [hrun, ← h0]
        simpa [Result.world] using htr

/-- C9 refuted as stated: two consecutive spaces give an empty argument,
and a tab does not separate words. -/
theorem execCommands_split_empty_argument :
    (execCommands envEcho (targetW ["ls  -l"]) worldEmpty).world.trace
      = [.pipeline "/w/", .spawn [] "ls" ["", "-l"] "ls" none] ∧
    (execCommands envEcho (targetW ["ls\t-l x"]) worldEmpty).world.trace
      = [.pipeline "/w/", .spawn [] "ls\t-l" ["x"] "ls\t-l" none] := by
  decide

/-! ## The change detector and the commit -/

theorem contentDiffers_iff (a b : String) : contentDiffers a b = true ↔ a ≠ b := by
  simp [contentDiffers]

theorem contentDiffers_self (a : String) : contentDiffers a a = false := by
  simp [contentDiffers]

/-- The state in which a file that could be read is compared: the log file
has been opened twice, nothing else has happened. -/
theorem beforeCompare_touch (env : Env) (f : String) (cfg : Config) (w : World) :
    TouchOp (lexKey w.cwd cfg.Logfile) w
      (writeErrorLog env none cfg (getLatestVersion env f cfg w).2) := by
  have h1 := getLatestVersion_touch env f cfg w
  have h2 := writeErrorLog_none_touch env cfg (getLatestVersion env f cfg w).2
  rw [h1.1.2.1] at h2
  exact TouchOp_trans _ _ _ _ h1 h2

theorem getLocalFileContent_ok (env : Env) (f : String) (cfg : Config) (w : World)
    (C : String) (hread : osReadFile w.disk w.cwd (cfg.Path ++ f) = .ok C) :
    getLocalFileContent env f cfg (getLatestVersion env f cfg w).2
      = .ok C (writeErrorLog env none cfg (getLatestVersion env f cfg w).2) := by
  have h := osReadFile_touch _ _ _ _ _ (getLatestVersion_touch env f cfg w) hread
  simp only [getLocalFileContent, h]

theorem body_unchanged (env : Env) (f : String) (cfg : Config) (w : World) (C : String)
    (hread : osReadFile w.disk w.cwd (cfg.Path ++ f) = .ok C)
    (hsame : contentDiffers (getLatestVersion env f cfg w).1 C = false) :
    checkChangesBody env f cfg w
      = .ok () (writeErrorLog env none cfg (getLatestVersion env f cfg w).2) := by
  simp only [checkChangesBody, getLocalFileContent_ok env f cfg w C hread, hsame]
  rfl

theorem body_changed (env : Env) (f : String) (cfg : Config) (w w2 : World) (C : String)
    (hread : osReadFile w.disk w.cwd (cfg.Path ++ f) = .ok C)
    (hdiff : contentDiffers (getLatestVersion env f cfg w).1 C = true)
    (hexec : execCommands env cfg
      (writeErrorLog env none cfg (getLatestVersion env f cfg w).2) = .ok () w2) :
    checkChangesBody env f cfg w = saveChangesToDb env f cfg C w2 := by
  simp only [checkChangesBody, getLocalFileContent_ok env f cfg w C hread, hdiff, hexec]
  rfl

theorem saveChangesToDb_trace (env : Env) (f : String) (cfg : Config) (C : String)
    (w : World) : ∃ t, (saveChangesToDb env f cfg C w).world.trace = w.trace ++ t := by
  cases hs : osStat w.disk w.cwd (cfg.Path ++ f) with
  | error e =>
    refine ⟨[], ?_⟩
    have := (writeErrorLog_some_op env e cfg w).1.2.2.2.1
    simp only [saveChangesToDb, hs, checkErr, Result.world, List.append_nil]
    exact this
  | ok file =>
    obtain ⟨w1, hrun, _, htr, _⟩ := saveChangesToDb_ok env f cfg C w file hs
    exact ⟨_, by rw [hrun]; exact htr⟩

theorem body_changed_trace (env : Env) (f : String) (cfg : Config) (w : World) (C : String)
    (hread : osReadFile w.disk w.cwd (cfg.Path ++ f) = .ok C)
    (hdiff : contentDiffers (getLatestVersion env f cfg w).1 C = true) :
    ∃ t, (checkChangesBody env f cfg w).world.trace = w.trace ++ .pipeline cfg.Path :: t := by
  obtain ⟨w2, evs, _, hrun, htr, _⟩ := execCommands_spec env cfg
    (writeErrorLog env none cfg (getLatestVersion env f cfg w).2)
  obtain ⟨t, ht⟩ := saveChangesToDb_trace env f cfg C w2
  refine ⟨evs ++ t, ?_⟩
  rw [body_changed env f cfg w w2 C hread hdiff hrun, ht, htr,
    (beforeCompare_touch env f cfg w).1.2.2.2.1]
  simp

/-- What one turn of the loop of checkChanges does in any case: the history
only grows, and the latest version of every other key stays. -/
theorem body_frame (env : Env) (f : String) (cfg : Config) (w : World) :
    (∃ t, (checkChangesBody env f cfg w).world.trace = w.trace ++ t) ∧
    ∀ (g : String) (cfg1 : Config), ¬ (cfg1.Path = cfg.Path ∧ g = f) →
      (getLatestVersion env g cfg1 (checkChangesBody env f cfg w).world).1
        = (getLatestVersion env g cfg1 w).1 := by
  have hB := beforeCompare_touch env f cfg w
  have hA := getLatestVersion_touch env f cfg w
  cases hread : osReadFile (getLatestVersion env f cfg w).2.disk
      (getLatestVersion env f cfg w).2.cwd (cfg.Path ++ f) with
  | error e =>
    have hop := (writeErrorLog_some_op env e cfg (getLatestVersion env f cfg w).2).1
    have hw : (checkChangesBody env f cfg w).world
        = { writeErrorLog env (some e) cfg (getLatestVersion env f cfg w).2 with
            stderr := (writeErrorLog env (some e) cfg (getLatestVersion env f cfg w).2).stderr
              ++ [e] } := by
      simp only [checkChangesBody, getLocalFileContent, hread, checkErr, Result.world]
    rw [hw]
    refine ⟨⟨[], ?_⟩, ?_⟩
    · simp only [List.append_nil]
      exact hop.2.2.2.1.trans hA.1.2.2.2.1
    · intro g cfg1 _
      exact getLatestVersion_db env g cfg1 w _ (hop.1.trans hA.1.1)
  | ok C =>
    have hbody : checkChangesBody env f cfg w =
        if contentDiffers (getLatestVersion env f cfg w).1 C then
          match execCommands env cfg
              (writeErrorLog env none cfg (getLatestVersion env f cfg w).2) with
          | .fatal e w2 => .fatal e w2
          | .ok _ w2 => saveChangesToDb env f cfg C w2
        else .ok () (writeErrorLog env none cfg (getLatestVersion env f cfg w).2) := by
      simp only [checkChangesBody, getLocalFileContent, hread]
    cases hd : contentDiffers (getLatestVersion env f cfg w).1 C with
    | false =>
      rw [hbody, hd]
      simp only [Bool.false_eq_true, if_false, Result.world]
      exact ⟨⟨[], by simpa using hB.1.2.2.2.1⟩,
        fun g cfg1 _ => getLatestVersion_db env g cfg1 w _ hB.1.1⟩
    | true =>
      obtain ⟨w2, evs, _, hrun, htr, hdb, _⟩ := execCommands_spec env cfg
        (writeErrorLog env none cfg (getLatestVersion env f cfg w).2)
      rw [hbody, hd, hrun]
      simp only [if_true]
      obtain ⟨t, ht⟩ := saveChangesToDb_trace env f cfg C w2
      refine ⟨⟨.pipeline cfg.Path :: evs ++ t, ?_⟩, ?_⟩
      · rw [ht, htr, hB.1.2.2.2.1]; simp
      · intro g cfg1 hne
        have hdb2 : w2.db = w.db := hdb.trans hB.1.1
        cases hs : osStat w2.disk w2.cwd (cfg.Path ++ f) with
        | error e =>
          have hop := (writeErrorLog_some_op env e cfg w2).1
          have hw : (saveChangesToDb env f cfg C w2).world
              = { writeErrorLog env (some e) cfg w2 with
                  stderr := (writeErrorLog env (some e) cfg w2).stderr ++ [e] } := by
            simp only [saveChangesToDb, hs, checkErr, Result.world]
          rw [hw]
          exact getLatestVersion_db env g cfg1 w _ (hop.1.trans hdb2)
        | ok file =>
          obtain ⟨w3, hrun3, hdb3, _⟩ := saveChangesToDb_ok env f cfg C w2 file hs
          rw [hrun3]
          simp only [Result.world]
          rw [getLatestVersion_append_other env g cfg1 w2 w3
            ⟨cfg.Path, f, C, file.ModTime⟩ hdb3 (fun h => hne ⟨h.1.symm, h.2.symm⟩)]
          exact getLatestVersion_db env g cfg1 w w2 hdb2

theorem checkChanges_frame (env : Env) (cfg : Config) :
    ∀ (files : List String) (w : World),
      (∃ t, (checkChanges env files cfg w).world.trace = w.trace ++ t) ∧
      ∀ (g : String) (cfg1 : Config), (cfg1.Path = cfg.Path → g ∉ files) →
        (getLatestVersion env g cfg1 (checkChanges env files cfg w).world).1
          = (getLatestVersion env g cfg1 w).1 := by
  intro files
  induction files with
  | nil => intro w; exact ⟨⟨[], by simp [checkChanges, Result.world]⟩, fun _ _ _ => rfl⟩
  | cons f rest ih =>
    intro w
    obtain ⟨⟨t1, ht1⟩, hl1⟩ := body_frame env f cfg w
    cases hb : checkChangesBody env f cfg w with
    | fatal e w1 =>
      rw [hb] at ht1 hl1
      simp only [checkChanges, hb, Result.world] at ht1 hl1 ⊢
      refine ⟨⟨t1, ht1⟩, ?_⟩
      intro g cfg1 hg
      exact hl1 g cfg1 (fun h => hg h.1 (h.2 ▸ List.mem_cons_self _ _))
    | ok u w1 =>
      rw [hb] at ht1 hl1
      simp only [Result.world] at ht1 hl1
      obtain ⟨⟨t2, ht2⟩, hl2⟩ := ih w1
      simp only [checkChanges, hb]
      refine ⟨⟨t1 ++ t2, by rw [ht2, ht1, List.append_assoc]⟩, ?_⟩
      intro g cfg1 hg
      rw [hl2 g cfg1 (fun h => fun hm => hg h (List.mem_cons_of_mem _ hm))]
      exact hl1 g cfg1 (fun h => hg h.1 (h.2 ▸ List.mem_cons_self _ _))

/-- C2, as the code has it: a file without any row in the table is compared
with the empty string. It is reported as changed, and the pipeline is
started, exactly when its on-disk content is not empty; an empty file
without a row is reported as unchanged: nothing is run, inserted, printed
or logged, and every file keeps its content (at most the log file is
created). -/
theorem first_seen (env : Env) (cfg : Config) (f : String) (w : World) (C : String)
    (hnew : ∀ r ∈ w.db, ¬ (r.path = cfg.Path ∧ r.filename = f))
    (hread : osReadFile w.disk w.cwd (cfg.Path ++ f) = .ok C) :
    (getLatestVersion env f cfg w).1 = "" ∧
    (contentDiffers (getLatestVersion env f cfg w).1 C = true ↔ C ≠ "") ∧
    (C ≠ "" → ∃ t,
      (checkChangesBody env f cfg w).world.trace = w.trace ++ .pipeline cfg.Path :: t) ∧
    (C = "" → ∃ w1, checkChangesBody env f cfg w = .ok () w1 ∧
      w1.db = w.db ∧ w1.trace = w.trace ∧ w1.logged = w.logged ∧
      w1.stdout = w.stdout ∧ w1.stderr = w.stderr ∧ w1.cwd = w.cwd ∧
      ∀ k c t, nodeAt w.disk k = some (.file c t) → nodeAt w1.disk k = some (.file c t)) := by
  have hlatest : (getLatestVersion env f cfg w).1 = "" := by
    rw [getLatestVersion_fst, queryLatest_empty w.db cfg.Path f hnew]
    rfl
  refine ⟨hlatest, ?_, ?_, ?_⟩
  · rw [contentDiffers_iff, hlatest]
    exact ⟨fun h e => h e.symm, fun h e => h e.symm⟩
  · intro hne
    apply body_changed_trace env f cfg w C hread
    rw [contentDiffers_iff, hlatest]
    exact fun e => hne e.symm
  · intro he
    obtain ⟨⟨a, b, c, e, _⟩, l, r, k⟩ := beforeCompare_touch env f cfg w
    refine ⟨_, body_unchanged env f cfg w C hread ?_, a, e, l, c, r, b, k⟩
    rw [hlatest, he]
    rfl

/-- Instance of C2: the file `/w/a` is seen for the first time with the
content `v1`. -/
theorem first_seen_witness :
    (∀ r ∈ (worldOf [] [(["w"], .dir 1), (["w", "a"], .file "v1" 7)]).db,
      ¬ (r.path = (targetW ["make"]).Path ∧ r.filename = "a")) ∧
    osReadFile (worldOf [] [(["w"], .dir 1), (["w", "a"], .file "v1" 7)]).disk
        (worldOf [] [(["w"], .dir 1), (["w", "a"], .file "v1" 7)]).cwd
        ((targetW ["make"]).Path ++ "a")
      = .ok "v1" ∧
    ((getLatestVersion envEcho "a" (targetW ["make"])
        (worldOf [] [(["w"], .dir 1), (["w", "a"], .file "v1" 7)])).1 = "" ∧
    (contentDiffers
        (getLatestVersion envEcho "a" (targetW ["make"])
          (worldOf [] [(["w"], .dir 1), (["w", "a"], .file "v1" 7)])).1 "v1"
      = true ↔ "v1" ≠ "") ∧
    ("v1" ≠ "" → ∃ t,
      (checkChangesBody envEcho "a" (targetW ["make"])
          (worldOf [] [(["w"], .dir 1), (["w", "a"], .file "v1" 7)])).world.trace
        = (worldOf [] [(["w"], .dir 1), (["w", "a"], .file "v1" 7)]).trace
            ++ .pipeline (targetW ["make"]).Path :: t) ∧
    ("v1" = "" → ∃ w1,
      checkChangesBody envEcho "a" (targetW ["make"])
          (worldOf [] [(["w"], .dir 1), (["w", "a"], .file "v1" 7)]) = .ok () w1 ∧
      w1.db = (worldOf [] [(["w"], .dir 1), (["w", "a"], .file "v1" 7)]).db ∧
      w1.trace = (worldOf [] [(["w"], .dir 1), (["w", "a"], .file "v1" 7)]).trace ∧
      w1.logged = (worldOf [] [(["w"], .dir 1), (["w", "a"], .file "v1" 7)]).logged ∧
      w1.stdout = (worldOf [] [(["w"], .dir 1), (["w", "a"], .file "v1" 7)]).stdout ∧
      w1.stderr = (worldOf [] [(["w"], .dir 1), (["w", "a"], .file "v1" 7)]).stderr ∧
      w1.cwd = (worldOf [] [(["w"], .dir 1), (["w", "a"], .file "v1" 7)]).cwd ∧
      ∀ k c t,
        nodeAt (worldOf [] [(["w"], .dir 1), (["w", "a"], .file "v1" 7)]).disk k
            = some (.file c t) →
          nodeAt w1.disk k = some (.file c t))) :=
  ⟨by simp [worldOf], rfl,
    first_seen envEcho (targetW ["make"]) "a"
      (worldOf [] [(["w"], .dir 1), (["w", "a"], .file "v1" 7)]) "v1"
      (by simp [worldOf]) rfl⟩

/-- C2 refuted as stated: an empty file that has no row in the table is not
reported as changed; the cycle starts no pipeline and inserts nothing (it
only creates the log file). -/
theorem first_seen_empty_file_ignored :
    checkChanges envEcho ["a"] (targetW ["make"])
        (worldOf [] [(["w"], .dir 1), (["w", "a"], .file "" 7)])
      = .ok ()
          { db := []
            disk := [(["w"], .dir 1), (["w", "a"], .file "" 7), (["t.log"], .file "" 100)]
            cwd := []
            logged := []
            stdout := []
            stderr := []
            trace := [] } ∧
    contentDiffers
        (getLatestVersion envEcho "a" (targetW ["make"])
          (worldOf [] [(["w"], .dir 1), (["w", "a"], .file "" 7)])).1
        "" = false :=
  ⟨rfl, rfl⟩

/-- C1 fails on the code: the only command of the target exits with status
1, and checkChanges still inserts the row for the changed file `/w/a`. The
next cycle over the same disk then finds the file unchanged and does
nothing, so the change is not detected again. -/
theorem commit_after_failed_pipeline :
    checkChanges envExit1 ["a"] (targetW ["false"])
        (worldOf [] [(["w"], .dir 1), (["w", "a"], .file "v1" 7)])
      = .ok ()
          { db := [⟨"/w/", "a", "v1", 7⟩]
            disk := [(["w"], .dir 1), (["w", "a"], .file "v1" 7),
              (["t.log"], .file "\nexit status 1\n" 102)]
            cwd := ["w"]
            logged := [⟨"/t.log", "", some ["t.log"]⟩,
              ⟨"/t.log", "exit status 1", some ["t.log"]⟩]
            stdout := []
            stderr := ["exit status 1"]
            trace := [.pipeline "/w/",
              .spawn ["w"] "false" [] "" (some (.exitError "exit status 1")),
              .commit "/w/" "a" "v1"] } ∧
    (checkChanges envExit1 ["a"] (targetW ["false"])
        (checkChanges envExit1 ["a"] (targetW ["false"])
          (worldOf [] [(["w"], .dir 1), (["w", "a"], .file "v1" 7)])).world).world
      = (checkChanges envExit1 ["a"] (targetW ["false"])
          (worldOf [] [(["w"], .dir 1), (["w", "a"], .file "v1" 7)])).world ∧
    (getLatestVersion envExit1 "a" (targetW ["false"])
        (checkChanges envExit1 ["a"] (targetW ["false"])
          (worldOf [] [(["w"], .dir 1), (["w", "a"], .file "v1" 7)])).world).1
      = "v1" :=
  ⟨rfl, rfl, rfl⟩

theorem checkChanges_cons_trace (env : Env) (cfg : Config) (f : String)
    (rest : List String) (w : World) :
    ∃ t, (checkChanges env (f :: rest) cfg w).world.trace
      = (checkChangesBody env f cfg w).world.trace ++ t := by
  cases hb : checkChangesBody env f cfg w with
  | fatal e w1 => exact ⟨[], by simp [checkChanges, hb, Result.world]⟩
  | ok u w1 =>
    obtain ⟨⟨t, ht⟩, _⟩ := checkChanges_frame env cfg rest w1
    exact ⟨t, by simpa [checkChanges, hb, Result.world] using ht⟩

/-- The file compared first in a cycle that returns: the row inserted for it
holds the content read before the pipeline ran. -/
theorem detection_time_head (env : Env) (cfg : Config) (f : String)
    (rest : List String) (w w1 : World) (C : String)
    (hnot : f ∉ rest)
    (hread : osReadFile w.disk w.cwd (cfg.Path ++ f) = .ok C)
    (hdiff : contentDiffers (getLatestVersion env f cfg w).1 C = true)
    (hret : checkChanges env (f :: rest) cfg w = .ok () w1) :
    (∃ (w2 : World) (t : Nat), checkChangesBody env f cfg w = .ok () w2 ∧
      w2.db = w.db ++ [⟨cfg.Path, f, C, t⟩] ∧
      w2.trace.getLast? = some (.commit cfg.Path f C)) ∧
    (getLatestVersion env f cfg w1).1 = C ∧
    (∀ C1, osReadFile w1.disk w1.cwd (cfg.Path ++ f) = .ok C1 → C1 ≠ C →
      contentDiffers (getLatestVersion env f cfg w1).1 C1 = true ∧
      ∃ t, (checkChanges env (f :: rest) cfg w1).world.trace
        = w1.trace ++ .pipeline cfg.Path :: t) := by
  obtain ⟨w2, evs, _, hrun, _, hdb, _⟩ := execCommands_spec env cfg
    (writeErrorLog env none cfg (getLatestVersion env f cfg w).2)
  have hbody := body_changed env f cfg w w2 C hread hdiff hrun
  have hdb2 : w2.db = w.db := hdb.trans (beforeCompare_touch env f cfg w).1.1
  cases hs : osStat w2.disk w2.cwd (cfg.Path ++ f) with
  | error e =>
    simp only [checkChanges, hbody, saveChangesToDb, hs, checkErr] at hret
    cases hret
  | ok file =>
    obtain ⟨w3, hrun3, hdb3, htr3, _⟩ := saveChangesToDb_ok env f cfg C w2 file hs
    rw [hrun3] at hbody
    have hlatest3 : (getLatestVersion env f cfg w3).1 = C :=
      getLatestVersion_append_same env f cfg w2 w3 ⟨cfg.Path, f, C, file.ModTime⟩ hdb3
        ⟨rfl, rfl⟩
    have hw1 : (checkChanges env rest cfg w3).world = w1 := by
      simp only [checkChanges, hbody] at hret
      rw [hret]
      rfl
    have hlatest1 : (getLatestVersion env f cfg w1).1 = C := by
      rw [← hw1, (checkChanges_frame env cfg rest w3).2 f cfg (fun _ => hnot)]
      exact hlatest3
    refine ⟨⟨w3, file.ModTime, hbody, by rw [hdb3, hdb2], by rw [htr3]; simp⟩, hlatest1, ?_⟩
    intro C1 hread1 hne
    have hdiff1 : contentDiffers (getLatestVersion env f cfg w1).1 C1 = true := by
      rw [hlatest1, contentDiffers_iff]
      exact fun e => hne e.symm
    refine ⟨hdiff1, ?_⟩
    obtain ⟨t1, ht1⟩ := body_changed_trace env f cfg w1 C1 hread1 hdiff1
    obtain ⟨t2, ht2⟩ := checkChanges_cons_trace env cfg f rest w1
    exact ⟨t1 ++ t2, by rw [ht2, ht1]; simp⟩

theorem checkChanges_append (env : Env) (cfg : Config) :
    ∀ (a b : List String) (w w1 : World), checkChanges env a cfg w = .ok () w1 →
      checkChanges env (a ++ b) cfg w = checkChanges env b cfg w1 := by
  intro a
  induction a with
  | nil => intro b w w1 h; cases h; rfl
  | cons f rest ih =>
    intro b w w1 h
    rw [List.cons_append, checkChanges]
    rw [checkChanges] at h
    cases hb : checkChangesBody env f cfg w with
    | fatal e w2 => rw [hb] at h; cases h
    | ok u w2 =>
      rw [hb] at h
      exact ih b w2 w1 h

/-- C10, as the code has it: take a cycle over a scan result in which the
file f occurs once, and let f differ from its latest recorded content when
its turn comes. The row that is inserted for f holds the content read
before the pipeline ran. When the cycle returns, the latest recorded content
of f is this detection-time content; so in the next cycle, when the turn of
f comes, the file is reported as changed exactly when it then holds another
content, and in that case the pipeline is started again. -/
theorem commit_detection_time_content (env : Env) (cfg : Config) (pre : List String)
    (f : String) (rest : List String) (w0 w w1 : World) (C : String)
    (hpre : f ∉ pre) (hnot : f ∉ rest)
    (hturn : checkChanges env pre cfg w0 = .ok () w)
    (hread : osReadFile w.disk w.cwd (cfg.Path ++ f) = .ok C)
    (hdiff : contentDiffers (getLatestVersion env f cfg w).1 C = true)
    (hret : checkChanges env (pre ++ f :: rest) cfg w0 = .ok () w1) :
    (∃ (w2 : World) (t : Nat), checkChangesBody env f cfg w = .ok () w2 ∧
      w2.db = w.db ++ [⟨cfg.Path, f, C, t⟩] ∧
      w2.trace.getLast? = some (.commit cfg.Path f C)) ∧
    (getLatestVersion env f cfg w1).1 = C ∧
    (∀ (w3 : World) (C1 : String), checkChanges env pre cfg w1 = .ok () w3 →
      osReadFile w3.disk w3.cwd (cfg.Path ++ f) = .ok C1 →
      (contentDiffers (getLatestVersion env f cfg w3).1 C1 = true ↔ C1 ≠ C) ∧
      (C1 ≠ C → ∃ t, (checkChanges env (pre ++ f :: rest) cfg w1).world.trace
        = w3.trace ++ .pipeline cfg.Path :: t)) := by
  rw [checkChanges_append env cfg pre (f :: rest) w0 w hturn] at hret
  obtain ⟨h1, h2, _⟩ := detection_time_head env cfg f rest w w1 C hnot hread hdiff hret
  refine ⟨h1, h2, ?_⟩
  intro w3 C1 hturn3 hread3
  have hlatest3 : (getLatestVersion env f cfg w3).1 = C := by
    have := (checkChanges_frame env cfg pre w1).2 f cfg (fun _ => hpre)
    rw [hturn3] at this
    exact this.trans h2
  have hiff : contentDiffers (getLatestVersion env f cfg w3).1 C1 = true ↔ C1 ≠ C := by
    rw [hlatest3, contentDiffers_iff]
    exact ⟨fun h e => h e.symm, fun h e => h e.symm⟩
  refine ⟨hiff, ?_⟩
  intro hne
  have hdiff3 := hiff.2 hne
  rw [checkChanges_append env cfg pre (f :: rest) w1 w3 hturn3]
  obtain ⟨t1, ht1⟩ := body_changed_trace env f cfg w3 C1 hread3 hdiff3
  obtain ⟨t2, ht2⟩ := checkChanges_cons_trace env cfg f rest w3
  exact ⟨t1 ++ t2, by rw [ht2, ht1]; simp⟩

/-- Instance of C10: `/w` holds `a`, recorded as it is, and `b`, not
recorded, and the pipeline rewrites `b` from `x` to `z`; the row that is
inserted for `b` holds `x`, and in the next cycle the pipeline is started
again for `b`. -/
theorem commit_detection_time_content_witness :
    "b" ∉ ["a"] ∧ "b" ∉ ([] : List String) ∧
    checkChanges envRewriteB ["a"] (targetW ["fmt"]) worldRecordedA
      = .ok () (checkChanges envRewriteB ["a"] (targetW ["fmt"]) worldRecordedA).world ∧
    osReadFile (checkChanges envRewriteB ["a"] (targetW ["fmt"]) worldRecordedA).world.disk
        (checkChanges envRewriteB ["a"] (targetW ["fmt"]) worldRecordedA).world.cwd
        ((targetW ["fmt"]).Path ++ "b")
      = .ok "x" ∧
    contentDiffers
        (getLatestVersion envRewriteB "b" (targetW ["fmt"])
          (checkChanges envRewriteB ["a"] (targetW ["fmt"]) worldRecordedA).world).1 "x"
      = true ∧
    checkChanges envRewriteB (["a"] ++ "b" :: []) (targetW ["fmt"]) worldRecordedA
      = .ok ()
          { db := [⟨"/w/", "a", "v1", 7⟩, ⟨"/w/", "b", "x", 1⟩]
            disk := [(["w"], .dir 1), (["w", "a"], .file "v1" 7), (["w", "b"], .file "z" 1),
              (["t.log"], .file "\n" 102)]
            cwd := ["w"]
            logged := [⟨"/t.log", "", some ["t.log"]⟩]
            stdout := ["Finished"]
            stderr := []
            trace := [.pipeline "/w/", .spawn ["w"] "fmt" [] "" none,
              .commit "/w/" "b" "x"] } ∧
    ((∃ (w2 : World) (t : Nat),
        checkChangesBody envRewriteB "b" (targetW ["fmt"])
          (checkChanges envRewriteB ["a"] (targetW ["fmt"]) worldRecordedA).world
            = .ok () w2 ∧
        w2.db = (checkChanges envRewriteB ["a"] (targetW ["fmt"]) worldRecordedA).world.db
          ++ [⟨(targetW ["fmt"]).Path, "b", "x", t⟩] ∧
        w2.trace.getLast? = some (.commit (targetW ["fmt"]).Path "b" "x")) ∧
      (getLatestVersion envRewriteB "b" (targetW ["fmt"])
          (World.mk [⟨"/w/", "a", "v1", 7⟩, ⟨"/w/", "b", "x", 1⟩]
            [(["w"], .dir 1), (["w", "a"], .file "v1" 7), (["w", "b"], .file "z" 1),
              (["t.log"], .file "\n" 102)]
            ["w"] [⟨"/t.log", "", some ["t.log"]⟩] ["Finished"] []
            [.pipeline "/w/", .spawn ["w"] "fmt" [] "" none, .commit "/w/" "b" "x"])).1
        = "x" ∧
      (∀ (w3 : World) (C1 : String),
        checkChanges envRewriteB ["a"] (targetW ["fmt"])
            (World.mk [⟨"/w/", "a", "v1", 7⟩, ⟨"/w/", "b", "x", 1⟩]
              [(["w"], .dir 1), (["w", "a"], .file "v1" 7), (["w", "b"], .file "z" 1),
                (["t.log"], .file "\n" 102)]
              ["w"] [⟨"/t.log", "", some ["t.log"]⟩] ["Finished"] []
              [.pipeline "/w/", .spawn ["w"] "fmt" [] "" none, .commit "/w/" "b" "x"])
          = .ok () w3 →
        osReadFile w3.disk w3.cwd ((targetW ["fmt"]).Path ++ "b") = .ok C1 →
        (contentDiffers (getLatestVersion envRewriteB "b" (targetW ["fmt"]) w3).1 C1 = true
          ↔ C1 ≠ "x") ∧
        (C1 ≠ "x" →
          ∃ t, (checkChanges envRewriteB (["a"] ++ "b" :: []) (targetW ["fmt"])
              (World.mk [⟨"/w/", "a", "v1", 7⟩, ⟨"/w/", "b", "x", 1⟩]
                [(["w"], .dir 1), (["w", "a"], .file "v1" 7), (["w", "b"], .file "z" 1),
                  (["t.log"], .file "\n" 102)]
                ["w"] [⟨"/t.log", "", some ["t.log"]⟩] ["Finished"] []
                [.pipeline "/w/", .spawn ["w"] "fmt" [] "" none,
                  .commit "/w/" "b" "x"])).world.trace
            = w3.trace ++ .pipeline (targetW ["fmt"]).Path :: t))) :=
  ⟨by decide, by simp, rfl, rfl, rfl, rfl,
    commit_detection_time_content envRewriteB (targetW ["fmt"]) ["a"] "b" [] worldRecordedA
      _ _ "x" (by decide) (by simp) rfl rfl rfl rfl⟩

/-- C10 refuted as stated: the pipeline rewrites the watched file `/w/f`
each time it runs (after its first run the file holds `y`), but in a cycle
over `f` and `g` it runs twice, so after the cycle the file holds `x`
again, which is the latest recorded content, and the next cycle reports
nothing and starts no pipeline. -/
theorem rewritten_file_not_reported_again :
    osReadFile
        (atPipelineEnd envToggleF "f" (targetW ["fmt"])
          (worldOf [] [(["w"], .dir 1), (["w", "f"], .file "x" 7),
            (["w", "g"], .file "g1" 7)])).disk [] "/w/f" = .ok "y" ∧
    checkChanges envToggleF ["f", "g"] (targetW ["fmt"])
        (worldOf [] [(["w"], .dir 1), (["w", "f"], .file "x" 7), (["w", "g"], .file "g1" 7)])
      = .ok ()
          { db := [⟨"/w/", "f", "x", 1⟩, ⟨"/w/", "g", "g1", 7⟩]
            disk := [(["w"], .dir 1), (["w", "f"], .file "x" 4), (["w", "g"], .file "g1" 7),
              (["t.log"], .file "\n\n" 105)]
            cwd := ["w"]
            logged := [⟨"/t.log", "", some ["t.log"]⟩, ⟨"/t.log", "", some ["t.log"]⟩]
            stdout := ["Finished", "Finished"]
            stderr := []
            trace := [.pipeline "/w/", .spawn ["w"] "fmt" [] "" none, .commit "/w/" "f" "x",
              .pipeline "/w/", .spawn ["w"] "fmt" [] "" none, .commit "/w/" "g" "g1"] } ∧
    (checkChanges envToggleF ["f", "g"] (targetW ["fmt"])
        (checkChanges envToggleF ["f", "g"] (targetW ["fmt"])
          (worldOf [] [(["w"], .dir 1), (["w", "f"], .file "x" 7),
            (["w", "g"], .file "g1" 7)])).world).world
      = (checkChanges envToggleF ["f", "g"] (targetW ["fmt"])
          (worldOf [] [(["w"], .dir 1), (["w", "f"], .file "x" 7),
            (["w", "g"], .file "g1" 7)])).world :=
  ⟨rfl, rfl, rfl⟩

/-! ## One cycle over several files -/

theorem writeErrorLog_op (env : Env) (err : Option String) (cfg : Config) (w : World) :
    LogOp (lexKey w.cwd cfg.Logfile) w (writeErrorLog env err cfg w) := by
  cases err with
  | none => exact (writeErrorLog_none_touch env cfg w).1
  | some e => exact (writeErrorLog_some_op env e cfg w).1

/-- A log call leaves alone every file that the log file cannot be. -/
theorem logOp_read (cfg : Config) (w w1 : World) (p : String)
    (h : LogOp (lexKey w.cwd cfg.Logfile) w w1)
    (hp : ∀ c, lexKey c cfg.Logfile ≠ lexKey [] p) :
    osReadFile w1.disk [] p = osReadFile w.disk [] p :=
  osReadFile_logStep _ _ _ _ _ h.2.2.2.2 (fun e => hp w.cwd e.symm)

theorem afterCommand_read (env : Env) (cfg : Config) (prog : String) (args : List String)
    (w : World) (p : String) (hp : ∀ c, lexKey c cfg.Logfile ≠ lexKey [] p)
    (hq : ∀ (n : Nat) (d : Disk) (cwd : List String) (prog : String) (args : List String),
      osReadFile ((env.Output n d cwd prog args).diskAfter d) [] p = osReadFile d [] p) :
    osReadFile (afterCommand env cfg prog args w).disk [] p = osReadFile w.disk [] p := by
  obtain ⟨_, _, _, _, _, _, _, hdisk⟩ := cmdOutput_spec env prog args (osChdir cfg.Path w)
  have h1 := writeLog_op env (cmdOutput env prog args (osChdir cfg.Path w)).1 cfg
    (cmdOutput env prog args (osChdir cfg.Path w)).2.2
  have h2 := writeErrorLog_op env
    ((cmdOutput env prog args (osChdir cfg.Path w)).2.1.map CmdErr.Error) cfg
    (writeLog env (cmdOutput env prog args (osChdir cfg.Path w)).1 cfg
      (cmdOutput env prog args (osChdir cfg.Path w)).2.2)
  have hlog : (afterCommand env cfg prog args w).disk
      = (writeErrorLog env
          ((cmdOutput env prog args (osChdir cfg.Path w)).2.1.map CmdErr.Error) cfg
          (writeLog env (cmdOutput env prog args (osChdir cfg.Path w)).1 cfg
            (cmdOutput env prog args (osChdir cfg.Path w)).2.2)).disk := by
    unfold afterCommand logErr
    split <;> rfl
  rw [hlog, logOp_read cfg _ _ p h2 hp, logOp_read cfg _ _ p h1.1 hp, hdisk, hq]
  simp

theorem execLoop_read (env : Env) (cfg : Config) (p : String)
    (hp : ∀ c, lexKey c cfg.Logfile ≠ lexKey [] p)
    (hq : ∀ (n : Nat) (d : Disk) (cwd : List String) (prog : String) (args : List String),
      osReadFile ((env.Output n d cwd prog args).diskAfter d) [] p = osReadFile d [] p) :
    ∀ (cmds : List String) (w : World),
      osReadFile (execLoop env cfg cmds w).world.disk [] p = osReadFile w.disk [] p := by
  intro cmds
  induction cmds with
  | nil => intro w; rfl
  | cons c cs ih =>
    intro w
    obtain ⟨prog, args, hs⟩ := stringsSplit_cons c
    rw [execLoop_cons env cfg c cs w prog args hs]
    have ha := afterCommand_read env cfg prog args w p hp hq
    cases (cmdOutput env prog args (osChdir cfg.Path w)).2.1 with
    | some e => exact ha
    | none =>
      simp only
      rw [ih, ha]

theorem execCommands_read (env : Env) (cfg : Config) (p : String)
    (hp : ∀ c, lexKey c cfg.Logfile ≠ lexKey [] p)
    (hq : ∀ (n : Nat) (d : Disk) (cwd : List String) (prog : String) (args : List String),
      osReadFile ((env.Output n d cwd prog args).diskAfter d) [] p = osReadFile d [] p)
    (w : World) :
    osReadFile (execCommands env cfg w).world.disk [] p = osReadFile w.disk [] p :=
  execLoop_read env cfg p hp hq cfg.Commands _

theorem diskContent_abs (w : World) (cfg : Config) (f : String)
    (habs : isAbs cfg.Path = true) :
    diskContent w cfg f =
      match osReadFile w.disk [] (cfg.Path ++ f) with
      | .ok c => c
      | .error _ => "" := by
  unfold diskContent
  rw [osReadFile_abs w.disk _ (isAbs_append _ f habs) w.cwd []]

/-- One file of a cycle, for commands and log calls that leave the files of
`P` alone. -/
theorem body_quiet (env : Env) (cfg : Config) (P : String → Prop)
    (habs : isAbs cfg.Path = true)
    (hP : ∀ p, P p → ∀ c, lexKey c cfg.Logfile ≠ lexKey [] p)
    (hq : ∀ (n : Nat) (d : Disk) (cwd : List String) (prog : String) (args : List String)
      (p : String), P p →
      osReadFile ((env.Output n d cwd prog args).diskAfter d) [] p = osReadFile d [] p)
    (f : String) (w : World) (C : String) (hPf : P (cfg.Path ++ f))
    (hfile : osReadFile w.disk [] (cfg.Path ++ f) = .ok C) :
    ∃ (w1 : World) (t : List Event),
      checkChangesBody env f cfg w = .ok () w1 ∧
      w1.trace = w.trace ++ t ∧
      t.filter Event.isMark =
        (if changedAt env w cfg f then
          [.pipeline cfg.Path, .commit cfg.Path f (diskContent w cfg f)] else []) ∧
      (∀ p, P p → osReadFile w1.disk [] p = osReadFile w.disk [] p) ∧
      (∀ (g : String) (cfg1 : Config), ¬ (cfg1.Path = cfg.Path ∧ g = f) →
        (getLatestVersion env g cfg1 w1).1 = (getLatestVersion env g cfg1 w).1) := by
  have hpabs := isAbs_append cfg.Path f habs
  have hread : osReadFile w.disk w.cwd (cfg.Path ++ f) = .ok C := by
    rw [osReadFile_abs w.disk _ hpabs w.cwd []]; exact hfile
  have hdc : diskContent w cfg f = C := by
    rw [diskContent_abs w cfg f habs, hfile]
  have hB := beforeCompare_touch env f cfg w
  have hBread : ∀ p, P p →
      osReadFile (writeErrorLog env none cfg (getLatestVersion env f cfg w).2).disk [] p
        = osReadFile w.disk [] p :=
    fun p hp => logOp_read cfg _ _ p hB.1 (hP p hp)
  have hframe := (body_frame env f cfg w).2
  cases hch : changedAt env w cfg f with
  | false =>
    have hsame : contentDiffers (getLatestVersion env f cfg w).1 C = false := by
      rw [← hdc]; exact hch
    have hbody := body_unchanged env f cfg w C hread hsame
    rw [hbody] at hframe
    exact ⟨_, [], hbody, by simpa using hB.1.2.2.2.1, by simp, hBread, hframe⟩
  | true =>
    have hdiff : contentDiffers (getLatestVersion env f cfg w).1 C = true := by
      rw [← hdc]; exact hch
    obtain ⟨w2, evs, _, hrun, htr, _, _, _, _, _, hsp, _⟩ := execCommands_spec env cfg
      (writeErrorLog env none cfg (getLatestVersion env f cfg w).2)
    have hlook : ∀ p, P p → osReadFile w2.disk [] p = osReadFile w.disk [] p := by
      intro p hp
      have := execCommands_read env cfg p (hP p hp)
        (fun n d cwd prog args => hq n d cwd prog args p hp)
        (writeErrorLog env none cfg (getLatestVersion env f cfg w).2)
      rw [hrun] at this
      exact this.trans (hBread p hp)
    obtain ⟨tm, hstat2⟩ := osStat_of_read w2.disk w2.cwd (cfg.Path ++ f) C (by
      rw [osReadFile_abs w2.disk _ hpabs w2.cwd [], hlook _ hPf]; exact hfile)
    obtain ⟨w3, hrun3, _, htr3, _, _, _, _, hstep3, _⟩ :=
      saveChangesToDb_ok env f cfg C w2 ⟨tm, false⟩ hstat2
    have hbody := body_changed env f cfg w w2 C hread hdiff hrun
    rw [hrun3] at hbody
    rw [hbody] at hframe
    refine ⟨w3, .pipeline cfg.Path :: evs ++ [.commit cfg.Path f C], hbody, ?_, ?_, ?_, hframe⟩
    · rw [htr3, htr, hB.1.2.2.2.1]; simp
    · have hnomark : evs.filter Event.isMark = [] := by
        rw [List.filter_eq_nil_iff]
        intro e he
        have := hsp e he
        cases e <;> simp [Event.isSpawn, Event.isMark] at this ⊢
      simp [List.filter_cons, Event.isMark, hnomark, hdc]
    · intro p hp
      rw [osReadFile_logStep _ _ _ _ _ hstep3 (fun e => hP p hp w2.cwd e.symm)]
      exact hlook p hp

theorem checkChanges_quiet (env : Env) (cfg : Config) (P : String → Prop)
    (habs : isAbs cfg.Path = true)
    (hP : ∀ p, P p → ∀ c, lexKey c cfg.Logfile ≠ lexKey [] p)
    (hq : ∀ (n : Nat) (d : Disk) (cwd : List String) (prog : String) (args : List String)
      (p : String), P p →
      osReadFile ((env.Output n d cwd prog args).diskAfter d) [] p = osReadFile d [] p) :
    ∀ (files : List String) (w : World), files.Nodup →
      (∀ f ∈ files, P (cfg.Path ++ f)) →
      (∀ f ∈ files, ∃ C, osReadFile w.disk [] (cfg.Path ++ f) = .ok C) →
      ∃ (w1 : World) (t : List Event),
        checkChanges env files cfg w = .ok () w1 ∧
        w1.trace = w.trace ++ t ∧
        t.filter Event.isMark =
          ((files.filter (changedAt env w cfg)).map (fun f =>
            [Event.pipeline cfg.Path,
              Event.commit cfg.Path f (diskContent w cfg f)])).flatten := by
  intro files
  induction files with
  | nil => intro w _ _ _; exact ⟨w, [], rfl, by simp, by simp⟩
  | cons f rest ih =>
    intro w hnd hPf hex
    obtain ⟨C, hfile⟩ := hex f (List.mem_cons_self _ _)
    obtain ⟨w1, t1, hbody, htr1, hmark1, hlook, hlatest⟩ :=
      body_quiet env cfg P habs hP hq f w C (hPf f (List.mem_cons_self _ _)) hfile
    have hnd1 := (List.nodup_cons.1 hnd)
    have hdc : ∀ g ∈ rest, diskContent w1 cfg g = diskContent w cfg g := by
      intro g hg
      rw [diskContent_abs w1 cfg g habs, diskContent_abs w cfg g habs,
        hlook _ (hPf g (List.mem_cons_of_mem _ hg))]
    have hch : ∀ g ∈ rest, changedAt env w1 cfg g = changedAt env w cfg g := by
      intro g hg
      have hne : ¬ (cfg.Path = cfg.Path ∧ g = f) := by
        rintro ⟨_, rfl⟩
        exact hnd1.1 hg
      simp [changedAt, hdc g hg, hlatest g cfg hne]
    obtain ⟨w2, t2, hrun2, htr2, hmark2⟩ := ih w1 hnd1.2
      (fun g hg => hPf g (List.mem_cons_of_mem _ hg))
      (fun g hg => by
        obtain ⟨Cg, hCg⟩ := hex g (List.mem_cons_of_mem _ hg)
        exact ⟨Cg, by rw [hlook _ (hPf g (List.mem_cons_of_mem _ hg))]; exact hCg⟩)
    refine ⟨w2, t1 ++ t2, ?_, by rw [htr2, htr1, List.append_assoc], ?_⟩
    · rw [checkChanges, hbody]
      exact hrun2
    · rw [List.filter_append, hmark1, hmark2, List.filter_congr hch]
      have hmap : (rest.filter (changedAt env w cfg)).map (fun g =>
          [Event.pipeline cfg.Path, Event.commit cfg.Path g (diskContent w1 cfg g)])
          = (rest.filter (changedAt env w cfg)).map (fun g =>
          [Event.pipeline cfg.Path, Event.commit cfg.Path g (diskContent w cfg g)]) := by
        apply List.map_congr_left
        intro g hg
        rw [hdc g (List.mem_of_mem_filter hg)]
      rw [hmap, List.filter_cons]
      cases changedAt env w cfg f <;> simp

theorem pipelineCount_filter_isMark (t : List Event) :
    pipelineCount (t.filter Event.isMark) = pipelineCount t := by
  unfold pipelineCount
  rw [List.filter_filter]
  congr 2
  funext e
  cases e <;> simp [Event.isMark]

theorem pipelineCount_append (a b : List Event) :
    pipelineCount (a ++ b) = pipelineCount a + pipelineCount b := by
  simp [pipelineCount, List.filter_append]

theorem pipelineCount_pairs (cfg : Config) (content : String → String) (l : List String) :
    pipelineCount ((l.map (fun f =>
      [Event.pipeline cfg.Path, Event.commit cfg.Path f (content f)])).flatten) = l.length := by
  induction l with
  | nil => rfl
  | cons f rest ih =>
    rw [List.map_cons, List.flatten_cons, pipelineCount_append, ih]
    simp [pipelineCount, List.filter_cons]
    omega

/-- C7, as the code has it: take a target with an absolute path whose log
file is none of the scanned files, a scan result with pairwise distinct
names whose files can all be read, and commands that leave the content of
these files as it is. Then one call of checkChanges returns, and its
pipeline starts and inserts are exactly one start followed by one insert of
the file's content for each file that differed from its latest recorded
content at the start of the cycle, in scan order; so k changed files give
exactly k pipeline starts. -/
theorem once_per_changed_file (env : Env) (cfg : Config) (files : List String) (w : World)
    (hnd : files.Nodup)
    (habs : isAbs cfg.Path = true)
    (hlog : ∀ f ∈ files, ∀ c, lexKey c cfg.Logfile ≠ lexKey [] (cfg.Path ++ f))
    (hex : ∀ f ∈ files, ∃ C, osReadFile w.disk w.cwd (cfg.Path ++ f) = .ok C)
    (hq : ∀ (n : Nat) (d : Disk) (cwd : List String) (prog : String) (args : List String),
      ∀ f ∈ files,
        osReadFile ((env.Output n d cwd prog args).diskAfter d) [] (cfg.Path ++ f)
          = osReadFile d [] (cfg.Path ++ f)) :
    ∃ (w1 : World) (t : List Event),
      checkChanges env files cfg w = .ok () w1 ∧
      w1.trace = w.trace ++ t ∧
      t.filter Event.isMark =
        ((files.filter (changedAt env w cfg)).map (fun f =>
          [Event.pipeline cfg.Path, Event.commit cfg.Path f (diskContent w cfg f)])).flatten ∧
      pipelineCount t = (files.filter (changedAt env w cfg)).length := by
  obtain ⟨w1, t, hrun, htr, hmark⟩ :=
    checkChanges_quiet env cfg (fun p => ∃ f ∈ files, p = cfg.Path ++ f) habs
      (by
        rintro p ⟨f, hf, rfl⟩
        exact hlog f hf)
      (by
        rintro n d cwd prog args p ⟨f, hf, rfl⟩
        exact hq n d cwd prog args f hf)
      files w hnd (fun f hf => ⟨f, hf, rfl⟩)
      (fun f hf => by
        obtain ⟨C, hC⟩ := hex f hf
        exact ⟨C, by rw [← osReadFile_abs w.disk _ (isAbs_append _ f habs) w.cwd []]; exact hC⟩)
  refine ⟨w1, t, hrun, htr, hmark, ?_⟩
  rw [← pipelineCount_filter_isMark, hmark, pipelineCount_pairs]


/-- The amended C7 at a concrete input: the scan result `a`, `b` of `/w`,
where only `a` differs from its recorded content, with a command that
touches no file and the log file `/t.log`. -/
theorem once_per_changed_file_witness :
    ["a", "b"].Nodup ∧
    isAbs (targetW ["make"]).Path = true ∧
    (∀ f ∈ ["a", "b"], ∀ c,
      lexKey c (targetW ["make"]).Logfile ≠ lexKey [] ((targetW ["make"]).Path ++ f)) ∧
    (∀ f ∈ ["a", "b"], ∃ C,
      osReadFile worldAB.disk worldAB.cwd ((targetW ["make"]).Path ++ f) = .ok C) ∧
    ["a", "b"].filter (changedAt envEcho worldAB (targetW ["make"])) = ["a"] ∧
    ∃ (w1 : World) (t : List Event),
      checkChanges envEcho ["a", "b"] (targetW ["make"]) worldAB = .ok () w1 ∧
      w1.trace = worldAB.trace ++ t ∧
      t.filter Event.isMark =
        ((["a", "b"].filter (changedAt envEcho worldAB (targetW ["make"]))).map (fun f =>
          [Event.pipeline (targetW ["make"]).Path,
            Event.commit (targetW ["make"]).Path f
              (diskContent worldAB (targetW ["make"]) f)])).flatten ∧
      pipelineCount t
        = (["a", "b"].filter (changedAt envEcho worldAB (targetW ["make"]))).length :=
  have h1 : ["a", "b"].Nodup := by decide
  have h2 : isAbs (targetW ["make"]).Path = true := by decide
  have h3 : ∀ f ∈ ["a", "b"], ∀ c,
      lexKey c (targetW ["make"]).Logfile ≠ lexKey [] ((targetW ["make"]).Path ++ f) := by
    intro f hf c
    have hc : lexKey c (targetW ["make"]).Logfile = lexKey [] "/t.log" :=
      lexKey_abs "/t.log" (by decide) c
    rw [hc]
    simp only [List.mem_cons, List.mem_singleton, List.not_mem_nil, or_false] at hf
    rcases hf with rfl | rfl <;> decide
  have h4 : ∀ f ∈ ["a", "b"], ∃ C,
      osReadFile worldAB.disk worldAB.cwd ((targetW ["make"]).Path ++ f) = .ok C := by
    intro f hf
    simp only [List.mem_cons, List.mem_singleton, List.not_mem_nil, or_false] at hf
    rcases hf with rfl | rfl
    · exact ⟨"new", rfl⟩
    · exact ⟨"x", rfl⟩
  ⟨h1, h2, h3, h4, by decide,
    once_per_changed_file envEcho (targetW ["make"]) ["a", "b"] worldAB h1 h2 h3 h4
      (fun _ _ _ _ _ _ _ => rfl)⟩

/-- C7 as stated fails. First input: `/w` holds `a`, not recorded, and `b`,
recorded as it is, and the command rewrites `b`; one file differs when the
cycle starts, and the cycle starts the pipeline twice and inserts two rows.
Second input: the log file `/w/w.log` is itself one of the scanned files and
is recorded as it is; the pipeline started for `a` writes the command output
to it, and the cycle starts a second pipeline for the log file. Third input:
the path `w/` is relative; the pipeline started for `a` changes the working
directory, the status of `w/a` can then not be read, and the cycle ends the
process with one pipeline start and no insert. -/
theorem pipeline_started_for_file_rewritten_in_cycle :
    (["a", "b"].filter (changedAt envRewriteB worldAB (targetW ["fmt"])) = ["a"] ∧
      (checkChanges envRewriteB ["a", "b"] (targetW ["fmt"]) worldAB).isFatal = false ∧
      (checkChanges envRewriteB ["a", "b"] (targetW ["fmt"]) worldAB).world.trace =
        [.pipeline "/w/", .spawn ["w"] "fmt" [] "" none, .commit "/w/" "a" "new",
         .pipeline "/w/", .spawn ["w"] "fmt" [] "" none, .commit "/w/" "b" "z"] ∧
      pipelineCount
        (checkChanges envRewriteB ["a", "b"] (targetW ["fmt"]) worldAB).world.trace = 2) ∧
    (["a", "w.log"].filter
        (changedAt envEcho worldLogScanned (targetLogInside ["make"])) = ["a"] ∧
      (checkChanges envEcho ["a", "w.log"] (targetLogInside ["make"])
        worldLogScanned).isFatal = false ∧
      (checkChanges envEcho ["a", "w.log"] (targetLogInside ["make"])
        worldLogScanned).world.trace =
        [.pipeline "/w/", .spawn ["w"] "make" [] "make" none, .commit "/w/" "a" "new",
         .pipeline "/w/", .spawn ["w"] "make" [] "make" none,
         .commit "/w/" "w.log" "old\nmake\n"]) ∧
    (["a"].filter (changedAt envEcho worldAB (targetRelative ["make"])) = ["a"] ∧
      (checkChanges envEcho ["a"] (targetRelative ["make"]) worldAB).isFatal = true ∧
      (checkChanges envEcho ["a"] (targetRelative ["make"]) worldAB).world.trace =
        [.pipeline "w/", .spawn ["w"] "make" [] "make" none] ∧
      (checkChanges envEcho ["a"] (targetRelative ["make"]) worldAB).world.db
        = worldAB.db) := by
  decide

/-! ## Cycles over unchanged files -/

theorem nodeAt_of_isDir (d : Disk) (k : List String) (h : isDir d k = true) :
    nodeAt d k ≠ none := by
  intro hn
  simp [isDir, hn] at h

theorem LogStep_keeps_node (kL : List String) (d d1 : Disk) (h : LogStep kL d d1)
    (k : List String) (hk : nodeAt d k ≠ none) : nodeAt d1 k ≠ none := by
  obtain ⟨hdir, hfile, hlog, _⟩ := h
  cases hn : nodeAt d k with
  | none => exact absurd hn hk
  | some n =>
    cases n with
    | dir t =>
      apply nodeAt_of_isDir
      rw [hdir]
      simp [isDir, hn]
    | file c t =>
      by_cases hkk : k = kL
      · subst hkk
        obtain ⟨c1, t1, h1⟩ := hlog ⟨c, t, hn⟩
        simp [h1]
      · rw [(hfile k c t hkk).2 hn]
        simp

theorem LogSteps_refl (LK : List (List String)) (d : Disk) : LogSteps LK d d :=
  ⟨fun _ => rfl, fun _ _ _ _ => Iff.rfl, fun _ _ h => h, fun _ _ => rfl⟩

theorem LogSteps_step (LK : List (List String)) (d0 d d1 : Disk) (kL : List String)
    (h : LogSteps LK d0 d) (hk : kL ∈ LK) (s : LogStep kL d d1) : LogSteps LK d0 d1 := by
  obtain ⟨a, b, c, e⟩ := h
  refine ⟨fun k => (s.1 k).trans (a k), ?_, ?_, ?_⟩
  · intro k cc t hkn
    have hne : k ≠ kL := fun h => hkn (h ▸ hk)
    exact (s.2.1 k cc t hne).trans (b k cc t hkn)
  · intro k hkk h0
    exact LogStep_keeps_node kL d d1 s k (c k hkk h0)
  · intro kd hkd
    rw [s.2.2.2 kd, e kd hkd]
    rcases hkd kL hk with h0 | h0
    · left; exact c kL hk h0
    · right; exact h0

theorem Idle_refl (LK : List (List String)) (w : World) : Idle LK w w :=
  ⟨rfl, rfl, rfl, rfl, LogSteps_refl LK w.disk⟩

theorem Idle_step (LK : List (List String)) (w0 w w1 : World) (cfg : Config)
    (h : Idle LK w0 w) (hk : lexKey w0.cwd cfg.Logfile ∈ LK)
    (s : LogOp (lexKey w.cwd cfg.Logfile) w w1) : Idle LK w0 w1 := by
  obtain ⟨a, b, c, e, f⟩ := h
  obtain ⟨a1, b1, c1, e1, f1⟩ := s
  rw [c] at f1
  exact ⟨a1.trans a, e1.trans b, b1.trans c, c1.trans e,
    LogSteps_step LK w0.disk w.disk w1.disk _ f hk f1⟩

theorem osReadFile_logSteps (LK : List (List String)) (d d1 : Disk) (c : List String)
    (p : String) (h : LogSteps LK d d1) (hne : lexKey c p ∉ LK) :
    osReadFile d1 c p = osReadFile d c p := by
  obtain ⟨hdir, hfile, _, _⟩ := h
  unfold osReadFile
  rw [resolve_congr d d1 hdir]
  cases hr : resolve d c p with
  | none => rfl
  | some k =>
    have hk := resolve_eq_some d c p k hr
    have hkne : k ∉ LK := by rw [hk]; exact hne
    simp only
    cases hn : nodeAt d k with
    | none =>
      cases hn1 : nodeAt d1 k with
      | none => rfl
      | some n =>
        cases n with
        | file cc t => rw [hfile k cc t hkne, hn] at hn1; cases hn1
        | dir t =>
          have : isDir d1 k = true := by simp [isDir, hn1]
          rw [hdir] at this
          simp [isDir, hn] at this
    | some n =>
      cases n with
      | file cc t => rw [(hfile k cc t hkne).2 hn]
      | dir t =>
        have : isDir d1 k = true := by rw [hdir]; simp [isDir, hn]
        cases hn1 : nodeAt d1 k with
        | none => simp [isDir, hn1] at this
        | some n1 =>
          cases n1 with
          | file cc t1 => simp [isDir, hn1] at this
          | dir t1 => rfl

theorem osOpen_ok (d : Disk) (c : List String) (p : String) (k : List String)
    (h : osOpen d c p = .ok k) : resolve d c p = some k ∧ nodeAt d k ≠ none := by
  unfold osOpen at h
  cases hr : resolve d c p with
  | none => rw [hr] at h; cases h
  | some k1 =>
    rw [hr] at h
    simp only at h
    cases hn : nodeAt d k1 with
    | none => rw [hn] at h; cases h
    | some n =>
      rw [hn] at h
      simp only at h
      cases h
      exact ⟨rfl, by simp [hn]⟩

theorem osOpen_of_dir (d : Disk) (c : List String) (p : String) (k : List String)
    (hr : resolve d c p = some k) (hd : isDir d k = true) : osOpen d c p = .ok k := by
  unfold osOpen
  rw [hr]
  simp only
  cases hn : nodeAt d k with
  | none => exact absurd hn (nodeAt_of_isDir d k hd)
  | some n => rfl

theorem Readdir_ok (d : Disk) (k : List String) (es : List DirEntry)
    (h : Readdir d k = .ok es) : isDir d k = true ∧ es = dirEntries d k := by
  unfold Readdir at h
  by_cases hd : isDir d k = true
  · rw [if_pos hd] at h
    cases h
    exact ⟨hd, rfl⟩
  · rw [if_neg hd] at h
    cases h

theorem readDir_ok_inv (env : Env) (cfg : Config) (w : World) (files : List String)
    (wx : World) (h : readDir env cfg w = .ok files wx) :
    ∃ (kd : List String) (es : List DirEntry),
      osOpen w.disk w.cwd cfg.Path = .ok kd ∧
      Readdir (writeErrorLog env none cfg w).disk kd = .ok es ∧
      files = scanSpec env cfg es := by
  cases hopen : osOpen w.disk w.cwd cfg.Path with
  | error err =>
    unfold readDir at h
    rw [hopen] at h
    simp [checkErr] at h
  | ok kd =>
    cases hlist : Readdir (writeErrorLog env none cfg w).disk kd with
    | error err =>
      unfold readDir at h
      rw [hopen] at h
      simp only at h
      rw [hlist] at h
      simp [checkErr] at h
    | ok es =>
      rw [readDir_eq env cfg w kd es hopen hlist] at h
      cases h
      exact ⟨kd, es, rfl, hlist, rfl⟩

theorem foldl_writeLog_idle (env : Env) (cfg : Config) (LK : List (List String))
    (w0 : World) (hk : lexKey w0.cwd cfg.Logfile ∈ LK) (pre : String) :
    ∀ (l : List String) (x : World), Idle LK w0 x →
      Idle LK w0 (l.foldl (fun acc n => writeLog env (pre ++ n) cfg acc) x) := by
  intro l
  induction l with
  | nil => intro x hx; exact hx
  | cons n rest ih =>
    intro x hx
    rw [List.foldl_cons]
    exact ih _ (Idle_step LK w0 x _ cfg hx hk (writeLog_op env (pre ++ n) cfg x).1)

/-- A scan in a state that differs from `w0` by log calls only returns what
it returns at `w0`, when no log file has to be created in the scanned
directory. -/
theorem readDir_idle (env : Env) (cfg : Config) (LK : List (List String)) (w0 w : World)
    (files : List String) (wx : World)
    (hI : Idle LK w0 w) (hk : lexKey w0.cwd cfg.Logfile ∈ LK)
    (hdir : ∀ k ∈ LK, nodeAt w0.disk k ≠ none ∨ k.dropLast ≠ lexKey w0.cwd cfg.Path)
    (hrd : readDir env cfg w0 = .ok files wx) :
    ∃ w1, readDir env cfg w = .ok files w1 ∧ Idle LK w0 w1 := by
  obtain ⟨kd, es, hopen, hlist, hfiles⟩ := readDir_ok_inv env cfg w0 files wx hrd
  obtain ⟨hres, _⟩ := osOpen_ok _ _ _ _ hopen
  have hkd := resolve_eq_some _ _ _ _ hres
  obtain ⟨hd0, hes0⟩ := Readdir_ok _ _ _ hlist
  have hI0 : Idle LK w0 (writeErrorLog env none cfg w0) :=
    Idle_step LK w0 w0 _ cfg (Idle_refl LK w0) hk (writeErrorLog_none_touch env cfg w0).1
  have hdir1 : ∀ k ∈ LK, nodeAt w0.disk k ≠ none ∨ k.dropLast ≠ kd := by
    rw [hkd]; exact hdir
  have hes : es = dirEntries w0.disk kd := by rw [hes0, hI0.2.2.2.2.2.2.2 kd hdir1]
  have hd : isDir w0.disk kd = true := by rw [← hI0.2.2.2.2.1 kd]; exact hd0
  have hopenw : osOpen w.disk w.cwd cfg.Path = .ok kd := by
    apply osOpen_of_dir
    · rw [resolve_congr w0.disk w.disk hI.2.2.2.2.1, hI.2.2.1]; exact hres
    · rw [hI.2.2.2.2.1 kd]; exact hd
  have hI1 : Idle LK w0 (writeErrorLog env none cfg w) :=
    Idle_step LK w0 w _ cfg hI hk (writeErrorLog_none_touch env cfg w).1
  have hlistw : Readdir (writeErrorLog env none cfg w).disk kd = .ok es := by
    unfold Readdir
    rw [hI1.2.2.2.2.1 kd, hd, if_pos rfl, hI1.2.2.2.2.2.2.2 kd hdir1, hes]
  have hI2 : Idle LK w0 (writeErrorLog env none cfg (writeErrorLog env none cfg w)) :=
    Idle_step LK w0 _ _ cfg hI1 hk (writeErrorLog_none_touch env cfg _).1
  refine ⟨_, ?_, foldl_writeLog_idle env cfg LK w0 hk "File tracked: " (scanSpec env cfg es) _ hI2⟩
  rw [readDir_eq env cfg w kd es hopenw hlistw, hfiles]

/-- A call of checkChanges over files that all hold their latest recorded
content returns, and does no more than a call of writeErrorLog with a nil
error. -/
theorem checkChanges_unchanged (env : Env) (cfg : Config) :
    ∀ (files : List String) (w : World),
      (∀ f ∈ files,
        osReadFile w.disk w.cwd (cfg.Path ++ f) = .ok (getLatestVersion env f cfg w).1) →
      ∃ w1, checkChanges env files cfg w = .ok () w1 ∧
        TouchOp (lexKey w.cwd cfg.Logfile) w w1 := by
  intro files
  induction files with
  | nil => intro w _; exact ⟨w, rfl, TouchOp_refl _ w⟩
  | cons f rest ih =>
    intro w h
    have hbody := body_unchanged env f cfg w _ (h f (List.mem_cons_self _ _))
      (contentDiffers_self _)
    have ht := beforeCompare_touch env f cfg w
    obtain ⟨w1, hrun, ht1⟩ := ih (writeErrorLog env none cfg (getLatestVersion env f cfg w).2)
      (fun g hg => by
        rw [getLatestVersion_db env g cfg w _ ht.1.1]
        exact osReadFile_touch _ w _ _ _ ht (h g (List.mem_cons_of_mem _ hg)))
    rw [ht.1.2.1] at ht1
    refine ⟨w1, ?_, TouchOp_trans _ _ _ _ ht ht1⟩
    rw [checkChanges, hbody]
    exact hrun

theorem diskContent_of_read (w : World) (cfg : Config) (f : String) (C : String)
    (h : osReadFile w.disk w.cwd (cfg.Path ++ f) = .ok C) : diskContent w cfg f = C := by
  unfold diskContent
  rw [h]

/-- Any number of calls of checkChanges in a row over files that all hold
their latest recorded content: each returns, the table, the history and what
was printed or logged stay as they are, every file keeps its content, and
the files still hold their latest recorded content. -/
theorem checkChangesTimes_unchanged (env : Env) (cfg : Config) (files : List String) :
    ∀ (n : Nat) (w : World),
      (∀ f ∈ files,
        osReadFile w.disk w.cwd (cfg.Path ++ f) = .ok (getLatestVersion env f cfg w).1) →
      ∃ w1, checkChangesTimes env files cfg n w = .ok () w1 ∧
        TouchOp (lexKey w.cwd cfg.Logfile) w w1 ∧
        ∀ f ∈ files,
          osReadFile w1.disk w1.cwd (cfg.Path ++ f)
            = .ok (getLatestVersion env f cfg w1).1 := by
  intro n
  induction n with
  | zero => intro w h; exact ⟨w, rfl, TouchOp_refl _ w, h⟩
  | succ n ih =>
    intro w h
    obtain ⟨w1, hrun, ht⟩ := checkChanges_unchanged env cfg files w h
    obtain ⟨w2, hrun2, ht2, h2⟩ := ih w1 (fun g hg => by
      rw [getLatestVersion_db env g cfg w _ ht.1.1]
      exact osReadFile_touch _ w _ _ _ ht (h g hg))
    rw [ht.1.2.1] at ht2
    refine ⟨w2, ?_, TouchOp_trans _ _ _ _ ht ht2, h2⟩
    rw [checkChangesTimes, hrun]
    exact hrun2

theorem monitoringPass_idle (env : Env) (configs : List Config) (scan : Config → List String)
    (w0 : World)
    (h : ∀ cfg ∈ configs, ∃ wx, readDir env cfg w0 = .ok (scan cfg) wx ∧
      ∀ f ∈ scan cfg,
        osReadFile w0.disk w0.cwd (cfg.Path ++ f) = .ok (getLatestVersion env f cfg w0).1)
    (hlog : ∀ c ∈ configs, ∀ c1 ∈ configs, ∀ f ∈ scan c1,
      lexKey w0.cwd c.Logfile ≠ lexKey w0.cwd (c1.Path ++ f))
    (hdir : ∀ c ∈ configs, ∀ c1 ∈ configs,
      nodeAt w0.disk (lexKey w0.cwd c.Logfile) ≠ none ∨
        (lexKey w0.cwd c.Logfile).dropLast ≠ lexKey w0.cwd c1.Path) :
    ∀ (cs : List Config), (∀ c ∈ cs, c ∈ configs) → ∀ (w : World),
      Idle (configs.map (fun c => lexKey w0.cwd c.Logfile)) w0 w →
      ∃ w1, monitoringPass env cs w = .ok () w1 ∧
        Idle (configs.map (fun c => lexKey w0.cwd c.Logfile)) w0 w1 := by
  intro cs
  induction cs with
  | nil => intro _ w hI; exact ⟨w, rfl, hI⟩
  | cons c rest ih =>
    intro hsub w hI
    have hc : c ∈ configs := hsub c (List.mem_cons_self _ _)
    have hk : lexKey w0.cwd c.Logfile ∈ configs.map (fun c => lexKey w0.cwd c.Logfile) :=
      List.mem_map.2 ⟨c, hc, rfl⟩
    obtain ⟨wx, hrd, hfiles⟩ := h c hc
    have hIa := Idle_step _ w0 w _ c hI hk (writeLog_op env ("Tracking: " ++ c.Path) c w).1
    obtain ⟨w1, hrd1, hI1⟩ := readDir_idle env c _ w0 _ (scan c) wx hIa hk
      (by
        intro k hkk
        obtain ⟨c2, hc2, rfl⟩ := List.mem_map.1 hkk
        exact hdir c2 hc2 c hc)
      hrd
    have hunch : ∀ f ∈ scan c,
        osReadFile w1.disk w1.cwd (c.Path ++ f) = .ok (getLatestVersion env f c w1).1 := by
      intro f hf
      rw [getLatestVersion_db env f c w0 w1 hI1.1, hI1.2.2.1,
        osReadFile_logSteps _ w0.disk w1.disk w0.cwd _ hI1.2.2.2.2]
      · exact hfiles f hf
      · intro hmem
        obtain ⟨c2, hc2, he⟩ := List.mem_map.1 hmem
        exact hlog c2 hc2 c hc f hf he
    obtain ⟨w2, hrun2, ht2⟩ := checkChanges_unchanged env c (scan c) w1 hunch
    have hI2 := Idle_step _ w0 w1 w2 c hI1 hk ht2.1
    obtain ⟨w3, hrun3, hI3⟩ := ih (fun c2 hc2 => hsub c2 (List.mem_cons_of_mem _ hc2)) w2 hI2
    refine ⟨w3, ?_, hI3⟩
    rw [monitoringPass, hrd1]
    simp only
    rw [hrun2]
    exact hrun3

theorem monitoring_idle (env : Env) (configs : List Config) (scan : Config → List String)
    (w0 : World)
    (h : ∀ cfg ∈ configs, ∃ wx, readDir env cfg w0 = .ok (scan cfg) wx ∧
      ∀ f ∈ scan cfg,
        osReadFile w0.disk w0.cwd (cfg.Path ++ f) = .ok (getLatestVersion env f cfg w0).1)
    (hlog : ∀ c ∈ configs, ∀ c1 ∈ configs, ∀ f ∈ scan c1,
      lexKey w0.cwd c.Logfile ≠ lexKey w0.cwd (c1.Path ++ f))
    (hdir : ∀ c ∈ configs, ∀ c1 ∈ configs,
      nodeAt w0.disk (lexKey w0.cwd c.Logfile) ≠ none ∨
        (lexKey w0.cwd c.Logfile).dropLast ≠ lexKey w0.cwd c1.Path) :
    ∀ (n : Nat) (w : World),
      Idle (configs.map (fun c => lexKey w0.cwd c.Logfile)) w0 w →
      ∃ w1, monitoring env configs n w = .ok () w1 ∧
        Idle (configs.map (fun c => lexKey w0.cwd c.Logfile)) w0 w1 := by
  intro n
  induction n with
  | zero => intro w hI; exact ⟨w, rfl, hI⟩
  | succ n ih =>
    intro w hI
    obtain ⟨w1, hrun, hI1⟩ :=
      monitoringPass_idle env configs scan w0 h hlog hdir configs (fun _ hc => hc) w hI
    obtain ⟨w2, hrun2, hI2⟩ := ih w1 hI1
    refine ⟨w2, ?_, hI2⟩
    rw [monitoring, hrun]
    exact hrun2

/-- C3, as the code has it: let every target be scanned to files that all
hold their latest recorded content, let no log file of a target be one of
the scanned files, and let every log file either exist already or lie in
none of the watched directories. Then any number n of passes of the watch
loop returns without starting a pipeline, spawning a command or inserting a
row: the table, the history, the working directory and the standard output
are what they were, every scanned file reads as before and is still not
reported as changed, and any number m of further calls of checkChanges
returns with the table and the history still unchanged. -/
theorem monitoring_idempotent (env : Env) (configs : List Config)
    (scan : Config → List String) (w : World) (n : Nat)
    (h : ∀ cfg ∈ configs, ∃ wx, readDir env cfg w = .ok (scan cfg) wx ∧
      ∀ f ∈ scan cfg,
        osReadFile w.disk w.cwd (cfg.Path ++ f) = .ok (getLatestVersion env f cfg w).1)
    (hlog : ∀ c ∈ configs, ∀ c1 ∈ configs, ∀ f ∈ scan c1,
      lexKey w.cwd c.Logfile ≠ lexKey w.cwd (c1.Path ++ f))
    (hdir : ∀ c ∈ configs, ∀ c1 ∈ configs,
      nodeAt w.disk (lexKey w.cwd c.Logfile) ≠ none ∨
        (lexKey w.cwd c.Logfile).dropLast ≠ lexKey w.cwd c1.Path) :
    ∃ w1, monitoring env configs n w = .ok () w1 ∧
      w1.db = w.db ∧ w1.trace = w.trace ∧ w1.cwd = w.cwd ∧ w1.stdout = w.stdout ∧
      ∀ cfg ∈ configs,
        (∀ f ∈ scan cfg,
          osReadFile w1.disk w1.cwd (cfg.Path ++ f)
              = osReadFile w.disk w.cwd (cfg.Path ++ f) ∧
            contentDiffers (getLatestVersion env f cfg w1).1 (diskContent w1 cfg f)
              = false) ∧
        ∀ m : Nat, ∃ w2, checkChangesTimes env (scan cfg) cfg m w1 = .ok () w2 ∧
          w2.db = w.db ∧ w2.trace = w.trace := by
  obtain ⟨w1, hrun, hdb, htr, hcwd, hout, hsteps⟩ :=
    monitoring_idle env configs scan w h hlog hdir n w (Idle_refl _ w)
  refine ⟨w1, hrun, hdb, htr, hcwd, hout, ?_⟩
  intro cfg hcfg
  obtain ⟨wx, _, hfiles⟩ := h cfg hcfg
  have hread : ∀ f ∈ scan cfg,
      osReadFile w1.disk w1.cwd (cfg.Path ++ f) = osReadFile w.disk w.cwd (cfg.Path ++ f) := by
    intro f hf
    rw [hcwd]
    apply osReadFile_logSteps _ w.disk w1.disk w.cwd _ hsteps
    intro hmem
    obtain ⟨c2, hc2, he⟩ := List.mem_map.1 hmem
    exact hlog c2 hc2 cfg hcfg f hf he
  have hunch : ∀ f ∈ scan cfg,
      osReadFile w1.disk w1.cwd (cfg.Path ++ f) = .ok (getLatestVersion env f cfg w1).1 := by
    intro f hf
    rw [hread f hf, getLatestVersion_db env f cfg w w1 hdb]
    exact hfiles f hf
  refine ⟨fun f hf => ⟨hread f hf, ?_⟩, ?_⟩
  · rw [diskContent_of_read w1 cfg f _ (hunch f hf)]
    exact contentDiffers_self _
  · intro m
    obtain ⟨w2, hrun2, ht2, _⟩ := checkChangesTimes_unchanged env cfg (scan cfg) m w1 hunch
    exact ⟨w2, hrun2, ht2.1.1.trans hdb, ht2.1.2.2.2.1.trans htr⟩


/-- The amended C3 at a concrete input: three passes over the target `/w/`
with the log file `/t.log`, whose only file `a` holds its recorded content
`v1`. -/
theorem monitoring_idempotent_witness :
    (∀ cfg ∈ [targetW ["make"]], ∃ wx,
      readDir envEcho cfg worldSettled = .ok ((fun _ => ["a"]) cfg) wx ∧
      ∀ f ∈ (fun _ => ["a"]) cfg,
        osReadFile worldSettled.disk worldSettled.cwd (cfg.Path ++ f)
          = .ok (getLatestVersion envEcho f cfg worldSettled).1) ∧
    (∀ c ∈ [targetW ["make"]], ∀ c1 ∈ [targetW ["make"]], ∀ f ∈ (fun _ => ["a"]) c1,
      lexKey worldSettled.cwd c.Logfile ≠ lexKey worldSettled.cwd (c1.Path ++ f)) ∧
    (∀ c ∈ [targetW ["make"]], ∀ c1 ∈ [targetW ["make"]],
      nodeAt worldSettled.disk (lexKey worldSettled.cwd c.Logfile) ≠ none ∨
        (lexKey worldSettled.cwd c.Logfile).dropLast ≠ lexKey worldSettled.cwd c1.Path) ∧
    ∃ w1, monitoring envEcho [targetW ["make"]] 3 worldSettled = .ok () w1 ∧
      w1.db = worldSettled.db ∧ w1.trace = worldSettled.trace ∧
      w1.cwd = worldSettled.cwd ∧ w1.stdout = worldSettled.stdout ∧
      ∀ cfg ∈ [targetW ["make"]],
        (∀ f ∈ (fun _ => ["a"]) cfg,
          osReadFile w1.disk w1.cwd (cfg.Path ++ f)
              = osReadFile worldSettled.disk worldSettled.cwd (cfg.Path ++ f) ∧
            contentDiffers (getLatestVersion envEcho f cfg w1).1 (diskContent w1 cfg f)
              = false) ∧
        ∀ m : Nat, ∃ w2, checkChangesTimes envEcho ((fun _ => ["a"]) cfg) cfg m w1 = .ok () w2 ∧
          w2.db = worldSettled.db ∧ w2.trace = worldSettled.trace :=
  have h : ∀ cfg ∈ [targetW ["make"]], ∃ wx,
      readDir envEcho cfg worldSettled = .ok ((fun _ => ["a"]) cfg) wx ∧
      ∀ f ∈ (fun _ => ["a"]) cfg,
        osReadFile worldSettled.disk worldSettled.cwd (cfg.Path ++ f)
          = .ok (getLatestVersion envEcho f cfg worldSettled).1 := by
    intro cfg hcfg
    rw [List.mem_singleton] at hcfg
    subst hcfg
    refine ⟨_, rfl, ?_⟩
    intro f hf
    rw [List.mem_singleton] at hf
    subst hf
    rfl
  have hlog : ∀ c ∈ [targetW ["make"]], ∀ c1 ∈ [targetW ["make"]],
      ∀ f ∈ (fun _ => ["a"]) c1,
      lexKey worldSettled.cwd c.Logfile ≠ lexKey worldSettled.cwd (c1.Path ++ f) := by
    intro c hc c1 hc1 f hf
    rw [List.mem_singleton] at hc hc1 hf
    subst hc hc1 hf
    decide
  have hdir : ∀ c ∈ [targetW ["make"]], ∀ c1 ∈ [targetW ["make"]],
      nodeAt worldSettled.disk (lexKey worldSettled.cwd c.Logfile) ≠ none ∨
        (lexKey worldSettled.cwd c.Logfile).dropLast ≠ lexKey worldSettled.cwd c1.Path := by
    intro c hc c1 hc1
    rw [List.mem_singleton] at hc hc1
    subst hc hc1
    decide
  ⟨h, hlog, hdir,
    monitoring_idempotent envEcho [targetW ["make"]] (fun _ => ["a"]) worldSettled 3
      h hlog hdir⟩

/-- C3 as stated fails when the log file is one of the scanned files: the
target `/w/` logs to `/w/w.log`, and both scanned files, `a` and `w.log`,
hold their latest recorded content. One pass of the watch loop writes to the
log file before it compares, finds `w.log` changed, starts the pipeline,
runs the command and inserts a row. -/
theorem log_file_among_scanned_files_is_committed :
    (∃ wx, readDir envEcho (targetLogInside ["make"]) worldSettledLogInside
      = .ok ["a", "w.log"] wx) ∧
    osReadFile worldSettledLogInside.disk worldSettledLogInside.cwd
        ((targetLogInside ["make"]).Path ++ "a")
      = .ok (getLatestVersion envEcho "a" (targetLogInside ["make"])
          worldSettledLogInside).1 ∧
    osReadFile worldSettledLogInside.disk worldSettledLogInside.cwd
        ((targetLogInside ["make"]).Path ++ "w.log")
      = .ok (getLatestVersion envEcho "w.log" (targetLogInside ["make"])
          worldSettledLogInside).1 ∧
    (monitoring envEcho [targetLogInside ["make"]] 1 worldSettledLogInside).isFatal
      = false ∧
    (monitoring envEcho [targetLogInside ["make"]] 1 worldSettledLogInside).world.trace =
      [.pipeline "/w/", .spawn ["w"] "make" [] "make" none,
       .commit "/w/" "w.log" "old\nTracking: /w/\nFile tracked: a\nFile tracked: w.log\n"] ∧
    (monitoring envEcho [targetLogInside ["make"]] 1 worldSettledLogInside).world.db =
      worldSettledLogInside.db ++
        [⟨"/w/", "w.log", "old\nTracking: /w/\nFile tracked: a\nFile tracked: w.log\n", 102⟩] :=
  ⟨⟨_, rfl⟩, rfl, rfl, by decide, by decide, by decide⟩

/-- One pass over unchanged files under a log file that cannot be opened:
nothing is run or inserted, both lines handed to the log are lost, and
writeLog prints `invalid argument` for each of them. -/
theorem monitoring_example_no_log_file :
    monitoring envEcho [targetNoLog ["make"]] 1 worldSettled
      = .ok ()
          { db := [⟨"/w/", "a", "v1", 7⟩]
            disk := [(["w"], .dir 1), (["w", "a"], .file "v1" 7)]
            cwd := []
            logged := [⟨"", "Tracking: /w/", none⟩, ⟨"", "File tracked: a", none⟩]
            stdout := []
            stderr := ["invalid argument", "invalid argument"]
            trace := [] } :=
  rfl

end Track
